import Mathlib

/-!
Verification of the deduplication/linking engine of `systemtools`
(`systemtools/linksame.py`, with `systemtools/linkidentical.py` as the
non-threaded variant of the same algorithm).

The engine is embedded shallowly:

* A path is a pair (directory part, filename component), mirroring the
  `(dirpath, fname)` pairs produced by `os.walk` and joined with
  `os.path.join`.
* The filesystem is a map from paths to directory entries (regular file
  with an inode number, or a symbolic link storing its target string)
  together with a map from inode numbers to file contents and a fresh
  inode counter.  File contents stand in for byte strings; the SHA-1
  digest of `_hash_file` is modelled as the content itself (a
  collision-free abstraction: no claim under study concerns hash
  collisions, only equality of digests).
* Fallible system calls (`os.unlink`, `os.link`, `os.symlink`, reading a
  file while hashing) are driven by oracles saying, per path, whether the
  call raises `OSError`/`IOError`.
* The threaded bucket workers of `link_same_files` are serialised: each
  bucket is hashed and linked in turn.  Workers own disjoint buckets, so
  this is a faithful linearisation.  A worker whose hashing raises dies
  without posting to `statsq`; the coordinator loop `while wait_count:
  statsq.get()` then never terminates, recorded here by a `hung` flag.
* Iteration order of a Python 2 `dict` is arbitrary; the model fixes one
  order for size buckets and hash groups.  No claim depends on that order.
-/

/-- A filesystem path, as the directory part plus the filename component
(`os.path.dirname` / `os.path.basename`). -/
structure FPath where
  dir : String
  name : String
deriving DecidableEq, Repr

/-- The full path string, as produced by `os.path.join(dirpath, fname)`. -/
def FPath.full (p : FPath) : String := p.dir ++ "/" ++ p.name

/-- A directory entry: a regular file (with its inode number) or a symbolic
link (storing the target string passed to `os.symlink`). -/
inductive Entry where
  | regular (ino : Nat)
  | symlink (target : String)
deriving DecidableEq, Repr

/-- Filesystem state: entries by path, contents by inode, and a counter
supplying fresh inode numbers for newly created files. -/
structure FS where
  entries : FPath → Option Entry
  contents : Nat → String
  nextIno : Nat

/-- The inode of the regular file at `p`, if any. -/
def inoOf (fs : FS) (p : FPath) : Option Nat :=
  match fs.entries p with
  | some (Entry.regular i) => some i
  | _ => none

/-- `os.path.isfile(p) and not os.path.islink(p)`: `p` names a regular,
non-symlink file.  Symlink targets are never resolved by the model; the
engine only ever treats non-symlink entries as files. -/
def isRegFile (fs : FS) (p : FPath) : Bool :=
  (inoOf fs p).isSome

/-- The byte content of the regular file at `p` (empty for non-files). -/
def fileContent (fs : FS) (p : FPath) : String :=
  match inoOf fs p with
  | some i => fs.contents i
  | none => ""

/-- `os.path.getsize(p)` for a regular file `p`. -/
def getsize (fs : FS) (p : FPath) : Nat :=
  (fileContent fs p).length

/-- `os.path.samefile(a, b)`: the two paths refer to the same inode.  The
engine only applies this to paths it scanned as regular files. -/
def samefile (fs : FS) (a b : FPath) : Bool :=
  match inoOf fs a, inoOf fs b with
  | some i, some j => i == j
  | _, _ => false

/-- `if pattern and not fnmatch.fnmatch(fname, pattern): continue`: the
optional filename filter, abstracted as an arbitrary Boolean predicate on
the filename component. -/
def patOk (pat : Option (String → Bool)) (p : FPath) : Bool :=
  match pat with
  | none => true
  | some m => m p.name

/-- The scanning filter of `link_same_files`: keep `fpath` when it is a
regular non-symlink file, of nonzero size, whose filename component
matches the optional pattern. -/
def scanOk (fs : FS) (pat : Option (String → Bool)) (p : FPath) : Bool :=
  isRegFile fs p &&
    (decide (getsize fs p ≠ 0)) &&
    patOk pat p

/-- The files collected by the `os.walk` loop of `link_same_files`, in walk
order.  `tree` lists the paths the walk visits, in order. -/
def scanFiles (fs : FS) (tree : List FPath) (pat : Option (String → Bool)) :
    List FPath :=
  tree.filter (scanOk fs pat)

/-- The distinct file sizes occurring among `files`, i.e. the key set of
`size_file_map`. -/
def sizesOf (fs : FS) (files : List FPath) : List Nat :=
  (files.map (getsize fs)).dedup

/-- The size bucket for size `s`: members of `files` of that size, in scan
order (`size_file_map[s]`). -/
def bucketOf (fs : FS) (files : List FPath) (s : Nat) : List FPath :=
  files.filter fun p => getsize fs p == s

/-- All size buckets (`size_file_map.itervalues()`). -/
def sizeBuckets (fs : FS) (files : List FPath) : List (List FPath) :=
  (sizesOf fs files).map (bucketOf fs files)

/-- The buckets actually dispatched to workers: `link_same_files` skips
buckets with fewer than two members (`if len(same_size_files) < 2`). -/
def multiBuckets (fs : FS) (files : List FPath) : List (List FPath) :=
  (sizeBuckets fs files).filter fun b => decide (2 ≤ b.length)

/-- The files for which a digest is computed during a run: every member of
every dispatched bucket is passed to `_hash_file` by `_check_same`. -/
def hashedFiles (fs : FS) (tree : List FPath) (pat : Option (String → Bool)) :
    List FPath :=
  (multiBuckets fs (scanFiles fs tree pat)).flatten

/-- `_hash_file`: streams the file and returns its digest, modelled as the
content itself.  `how p = true` means reading `p` raises an `IOError`;
`_hash_file` installs no handler, so the error propagates to its caller. -/
def hashFile (how : FPath → Bool) (fs : FS) (p : FPath) :
    Except Unit String :=
  if how p then Except.error () else Except.ok (fileContent fs p)

/-- The hash groups `_check_same` builds from one size bucket: members
grouped by digest, singleton groups pruned (`len(files) > 1`).  Group
membership lists keep bucket order; the group order (a Python 2 dict
iteration) is fixed arbitrarily. -/
def sameGroups (fs : FS) (filepaths : List FPath) : List (List FPath) :=
  (((filepaths.map fun p => fileContent fs p).dedup).map fun d =>
      filepaths.filter fun p => fileContent fs p == d).filter
    fun g => decide (1 < g.length)

/-- `_check_same` over one bucket.  If `_hash_file` raises on any member the
exception escapes the loop building `hash_file_map`, so no group of this
bucket is ever produced. -/
def checkSame (how : FPath → Bool) (fs : FS) (filepaths : List FPath) :
    Except Unit (List (List FPath)) :=
  if filepaths.any how then Except.error ()
  else Except.ok (sameGroups fs filepaths)

/-- The sort key `fkey` of `_link_files`: (length of filename component,
length of full path). -/
def fkey (p : FPath) : Nat × Nat := (p.name.length, p.full.length)

/-- Ascending comparison of `fkey` values (lexicographic on the pair), the
order `files.sort(key=fkey)` sorts by. -/
def fkeyLe (a b : FPath) : Bool :=
  decide (a.name.length < b.name.length) ||
    (decide (a.name.length = b.name.length) &&
      decide (a.full.length ≤ b.full.length))

/-- `files.sort(key=fkey)`: a stable ascending sort by `fkey`.  Python's
Timsort is stable, and all stable sorts under one total preorder produce
the same list, so a stable insertion sort models it exactly. -/
def sortFiles (files : List FPath) : List FPath :=
  List.insertionSort (fun a b => fkeyLe a b = true) files

/-- The survivor (`base_file = files.pop()` after the sort) and the
remaining members, in sorted order. -/
def splitSurvivor (files : List FPath) : Option (FPath × List FPath) :=
  match (sortFiles files).getLast? with
  | none => none
  | some b => some (b, (sortFiles files).dropLast)

/-- Failure oracle for the filesystem mutations of `_link_files`: whether
`os.unlink(f)`, `os.link(base, f)`, `os.symlink(src, f)` raises `OSError`
for a given `f`. -/
structure Oracle where
  unlinkFails : FPath → Bool
  hardlinkFails : FPath → Bool
  symlinkFails : FPath → Bool

/-- An environment in which no unlink, hardlink or symlink call fails. -/
def noFailures (orc : Oracle) : Prop :=
  ∀ p, orc.unlinkFails p = false ∧ orc.hardlinkFails p = false ∧
    orc.symlinkFails p = false

/-- Create or replace the entry at `p`. -/
def setEntry (fs : FS) (p : FPath) (e : Entry) : FS :=
  FS.mk (fun q => if q = p then some e else fs.entries q) fs.contents
    fs.nextIno

/-- `os.unlink(p)`: remove the entry at `p` (the inode's content survives
for any remaining hard links to it). -/
def removeEntry (fs : FS) (p : FPath) : FS :=
  FS.mk (fun q => if q = p then none else fs.entries q) fs.contents
    fs.nextIno

/-- The prefix length shared by two path component lists (the common-prefix
computation of `posixpath.relpath`). -/
def sharedLead : List String → List String → Nat
  | a :: as, b :: bs => if a = b then sharedLead as bs + 1 else 0
  | _, _ => 0

/-- `os.path.relpath(path, start)` on already-normalized directory
strings. -/
def relpath (path start : String) : String :=
  let ps := path.splitOn "/"
  let ss := start.splitOn "/"
  let k := sharedLead ps ss
  let parts := List.replicate (ss.length - k) ".." ++ ps.drop k
  if parts.isEmpty then "." else String.intercalate "/" parts

/-- The string given to `os.symlink` in `_link_files`: the survivor's full
path when `absolute`, else `os.path.relpath(os.path.dirname(f),
os.path.dirname(base_file))` joined with the survivor's filename (just
the filename when that relative path is `.`). -/
def symlinkSource (absolute : Bool) (base f : FPath) : String :=
  if absolute then base.full
  else
    let rp := relpath f.dir base.dir
    if rp = "." then base.name else rp ++ "/" ++ base.name

/-- `shutil.copy2(base, f)`: recreate `f` as a fresh regular file holding
the survivor's bytes (the restoration step after a failed symlink). -/
def copyRestore (fs : FS) (base f : FPath) : FS :=
  FS.mk (fun q => if q = f then some (Entry.regular fs.nextIno)
                  else fs.entries q)
    (fun i => if i = fs.nextIno then fileContent fs base else fs.contents i)
    (fs.nextIno + 1)

/-- The body of the `for f in files` loop of `_link_files`, acting on the
accumulator (link count, bytes saved, filesystem).  Mirrors the source:
skip if already the same inode; in dry-run mode (`link = false`) count
without touching the filesystem; otherwise unlink (skip member on
failure), attempt a hardlink unless `symlink`-only, fall back to a
symlink, and on symlink failure restore the file by copying and skip the
statistics update. -/
def processMember (link symlink absolute : Bool) (orc : Oracle)
    (base : FPath) (baseSize : Nat) (acc : Nat × Nat × FS) (f : FPath) :
    Nat × Nat × FS :=
  let links := acc.1
  let saved := acc.2.1
  let fs := acc.2.2
  if samefile fs base f then acc
  else if !link then (links + 1, saved + baseSize, fs)
  else if orc.unlinkFails f then acc
  else
    let fs1 := removeEntry fs f
    match (if symlink then none
           else if orc.hardlinkFails f then none
           else inoOf fs1 base) with
    | some i => (links + 1, saved + baseSize, setEntry fs1 f (Entry.regular i))
    | none =>
      if orc.symlinkFails f then (links, saved, copyRestore fs1 base f)
      else (links + 1, saved + baseSize,
        setEntry fs1 f (Entry.symlink (symlinkSource absolute base f)))

/-- The `for f in files` loop of `_link_files` over the non-survivors. -/
def linkFilesLoop (link symlink absolute : Bool) (orc : Oracle)
    (base : FPath) (baseSize : Nat) (acc : Nat × Nat × FS)
    (files : List FPath) : Nat × Nat × FS :=
  files.foldl (processMember link symlink absolute orc base baseSize) acc

/-- `_link_files`: sort, pop the survivor, take its size, run the loop.
Returns (link count, bytes saved, final filesystem). -/
def linkFiles (link symlink absolute : Bool) (orc : Oracle) (fs : FS)
    (files : List FPath) : Nat × Nat × FS :=
  match splitSurvivor files with
  | none => (0, 0, fs)
  | some (base, rest) =>
    linkFilesLoop link symlink absolute orc base (getsize fs base)
      (0, 0, fs) rest

/-- Running state of a `link_same_files` invocation: aggregated statistics,
current filesystem, the (survivor, replaced) plans processed so far, and
whether a dead worker left the coordinator blocked forever. -/
structure RunSt where
  links : Nat
  saved : Nat
  fs : FS
  plans : List (FPath × List FPath)
  hung : Bool

/-- Process one linkable set inside a worker (`_link_files` call in
`check_and_link`), recording its plan. -/
def runSet (link symlink absolute : Bool) (orc : Oracle) (st : RunSt)
    (s : List FPath) : RunSt :=
  match splitSurvivor s with
  | none => st
  | some (base, rest) =>
    let r := linkFilesLoop link symlink absolute orc base
      (getsize st.fs base) (0, 0, st.fs) rest
    RunSt.mk (st.links + r.1) (st.saved + r.2.1) r.2.2
      ((base, rest) :: st.plans) st.hung

/-- One worker (`check_and_link`): hash the bucket, link each resulting
set, post statistics.  A raise inside `_check_same` kills the thread
before anything is linked or posted, leaving the coordinator waiting
forever (`hung`). -/
def runBucket (link symlink absolute : Bool) (orc : Oracle)
    (how : FPath → Bool) (st : RunSt) (bucket : List FPath) : RunSt :=
  match checkSame how st.fs bucket with
  | Except.error _ => RunSt.mk st.links st.saved st.fs st.plans true
  | Except.ok sets => sets.foldl (runSet link symlink absolute orc) st

/-- `link_same_files` after root validation: scan, bucket by size, dispatch
every multi-member bucket, aggregate. -/
def linkSameFiles (tree : List FPath) (fs0 : FS)
    (pat : Option (String → Bool)) (link symlink absolute : Bool)
    (orc : Oracle) (how : FPath → Bool) : RunSt :=
  (multiBuckets fs0 (scanFiles fs0 tree pat)).foldl
    (runBucket link symlink absolute orc how)
    (RunSt.mk 0 0 fs0 [] false)

/-- `link_same_files` including the root-directory check; `rootIsDir`
abstracts `os.path.isdir(root_dir)`.  On failure the function returns the
error string before walking anything. -/
def linkSameFilesTop (rootIsDir : Bool) (tree : List FPath) (fs0 : FS)
    (pat : Option (String → Bool)) (link symlink absolute : Bool)
    (orc : Oracle) (how : FPath → Bool) : Except String RunSt :=
  if !rootIsDir then Except.error "is not a directory"
  else Except.ok (linkSameFiles tree fs0 pat link symlink absolute orc how)

/-- Exit status of `main` in (non-update) files mode: `1` when
`link_same_files` returned an error string, otherwise `0`; `none` when the
run never terminates (coordinator blocked on `statsq`). -/
def mainExitFiles (rootIsDir : Bool) (tree : List FPath) (fs0 : FS)
    (pat : Option (String → Bool)) (link symlink absolute : Bool)
    (orc : Oracle) (how : FPath → Bool) : Option Nat :=
  match linkSameFilesTop rootIsDir tree fs0 pat link symlink absolute orc
      how with
  | Except.error _ => some 1
  | Except.ok st => if st.hung then none else some 0

/-- Result of a completed `link_same_update` run: statistics, final
filesystem, the processed plan (if any), and the assembled set `same`. -/
structure UpdRes where
  links : Nat
  saved : Nat
  fs : FS
  plan : Option (FPath × List FPath)
  same : List FPath

/-- Outcome of `link_same_update`: an error string returned to `main`, an
uncaught exception aborting the process, or a completed run. -/
inductive UpdOutcome where
  | configError (msg : String)
  | crashed
  | done (r : UpdRes)

/-- The walk loop of `link_same_update`: collect tree files that are
regular non-symlinks of the target's size, match the pattern, and hash to
the target's digest.  A raise from `_hash_file` escapes the loop (the
checks before it mirror the source order, so a file is only hashed after
passing the size and pattern filters). -/
def collectSame (how : FPath → Bool) (fs : FS) (upSize : Nat)
    (upHash : String) (pat : Option (String → Bool)) :
    List FPath → Except Unit (List FPath)
  | [] => Except.ok []
  | p :: rest =>
    if !isRegFile fs p then collectSame how fs upSize upHash pat rest
    else if getsize fs p != upSize then collectSame how fs upSize upHash pat rest
    else if !patOk pat p then collectSame how fs upSize upHash pat rest
    else
      match hashFile how fs p with
      | Except.error e => Except.error e
      | Except.ok d =>
        if d != upHash then collectSame how fs upSize upHash pat rest
        else
          match collectSame how fs upSize upHash pat rest with
          | Except.error e => Except.error e
          | Except.ok l => Except.ok (p :: l)

/-- `link_same_update`: validate the target (given, root a directory,
target a regular file, target nonempty), hash it, collect the matching
tree files, and when anything matched run `_link_files` over the target
plus the matches. -/
def linkSameUpdate (updGiven : Bool) (upd : FPath) (rootIsDir : Bool)
    (tree : List FPath) (fs0 : FS) (pat : Option (String → Bool))
    (link symlink absolute : Bool) (orc : Oracle) (how : FPath → Bool) :
    UpdOutcome :=
  if !updGiven then UpdOutcome.configError "Update file not specified"
  else if !rootIsDir then UpdOutcome.configError "is not a directory"
  else if !isRegFile fs0 upd then UpdOutcome.configError "is not a file"
  else if getsize fs0 upd == 0 then UpdOutcome.configError "is empty"
  else
    match hashFile how fs0 upd with
    | Except.error _ => UpdOutcome.crashed
    | Except.ok upHash =>
      match collectSame how fs0 (getsize fs0 upd) upHash pat tree with
      | Except.error _ => UpdOutcome.crashed
      | Except.ok others =>
        let same := upd :: others
        if 1 < same.length then
          let r := linkFiles link symlink absolute orc fs0 same
          UpdOutcome.done (UpdRes.mk r.1 r.2.1 r.2.2 (splitSurvivor same) same)
        else UpdOutcome.done (UpdRes.mk 0 0 fs0 none same)

/-- Exit status of `main` in update mode: `1` for a returned error string
and for a process killed by an uncaught exception, `0` for a completed
run. -/
def mainExitUpdate (updGiven : Bool) (upd : FPath) (rootIsDir : Bool)
    (tree : List FPath) (fs0 : FS) (pat : Option (String → Bool))
    (link symlink absolute : Bool) (orc : Oracle) (how : FPath → Bool) :
    Nat :=
  match linkSameUpdate updGiven upd rootIsDir tree fs0 pat link symlink
      absolute orc how with
  | UpdOutcome.configError _ => 1
  | UpdOutcome.crashed => 1
  | UpdOutcome.done _ => 0

/-- Dry-run link count contributed by one linkable set: the non-survivors
not already hardlinked to the survivor. -/
def setLinks (fs : FS) (s : List FPath) : Nat :=
  match splitSurvivor s with
  | none => 0
  | some (b, rest) => (rest.filter fun f => !samefile fs b f).length

/-- Dry-run bytes saved contributed by one linkable set. -/
def setSaved (fs : FS) (s : List FPath) : Nat :=
  match splitSurvivor s with
  | none => 0
  | some (b, rest) =>
    (rest.filter fun f => !samefile fs b f).length * getsize fs b

/-- Dry-run link count of one bucket (sum over its hash groups). -/
def bucketLinks (fs : FS) (b : List FPath) : Nat :=
  ((sameGroups fs b).map (setLinks fs)).sum

/-- Dry-run bytes saved of one bucket. -/
def bucketSaved (fs : FS) (b : List FPath) : Nat :=
  ((sameGroups fs b).map (setSaved fs)).sum

/-- Every inode mentioned by an entry is below the fresh-inode counter. -/
def inosOk (fs : FS) : Prop :=
  ∀ p i, fs.entries p = some (Entry.regular i) → i < fs.nextIno

/-- Two filesystems agree (entry-wise) on a set of paths. -/
def agreesOn (A : List FPath) (fs1 fs2 : FS) : Prop :=
  ∀ x ∈ A, fs1.entries x = fs2.entries x

/-- Concrete oracle for witnesses: no system call ever fails. -/
def orcOk : Oracle := Oracle.mk (fun _ => false) (fun _ => false) (fun _ => false)

/-- Concrete hashing oracle for witnesses: reading never fails. -/
def howOk : FPath → Bool := fun _ => false

/-- Sample path `r/a.txt`. -/
def pa : FPath := FPath.mk "r" "a.txt"

/-- Sample path `r/b.txt`. -/
def pb : FPath := FPath.mk "r" "b.txt"

/-- Sample path `r/dir/c.txt`. -/
def pc : FPath := FPath.mk "r/dir" "c.txt"

/-- Sample tree: `a.txt` and `dir/c.txt` hold "hello", `b.txt` holds
"world" (the walkthrough scenario of the specification). -/
def fsDemo : FS :=
  FS.mk
    (fun q => if q = pa then some (Entry.regular 1)
      else if q = pb then some (Entry.regular 2)
      else if q = pc then some (Entry.regular 3) else none)
    (fun i => if i = 1 then "hello" else if i = 2 then "world"
      else if i = 3 then "hello" else "")
    10

/-- Sample state in which `pa` and `pb` are already hardlinked (same
inode). -/
def fsLinked : FS :=
  FS.mk
    (fun q => if q = pa then some (Entry.regular 1)
      else if q = pb then some (Entry.regular 1) else none)
    (fun i => if i = 1 then "hello" else "")
    10

/-- Oracle for witnesses in which every unlink call fails (per-file link
failures everywhere). -/
def orcNoUnlink : Oracle :=
  Oracle.mk (fun _ => true) (fun _ => false) (fun _ => false)

/-- Update-mode sample target `x/up.txt` with content "dup". -/
def pu : FPath := FPath.mk "x" "up.txt"

/-- Update-mode sample tree file `r/d1.bin` with content "dup". -/
def pd1 : FPath := FPath.mk "r" "d1.bin"

/-- Update-mode sample tree file `r/archive.bin` with content "dup". -/
def pd2 : FPath := FPath.mk "r" "archive.bin"

/-- Update-mode sample filesystem: the external target `pu` and the two
tree files `pd1`, `pd2` all hold "dup". -/
def fsUpd : FS :=
  FS.mk
    (fun q => if q = pu then some (Entry.regular 1)
      else if q = pd1 then some (Entry.regular 2)
      else if q = pd2 then some (Entry.regular 3) else none)
    (fun i => if i = 1 then "dup" else if i = 2 then "dup"
      else if i = 3 then "dup" else "")
    10

/-- The member paths a link plan touches: the survivor and the replaced
members. -/
def membersOf (pl : FPath × List FPath) : List FPath := pl.1 :: pl.2

/-- Well-formedness of the accumulated plans: no plan replaces its own
survivor, and distinct plans touch disjoint path sets. -/
def plansOk (plans : List (FPath × List FPath)) : Prop :=
  (∀ pl ∈ plans, pl.1 ∉ pl.2) ∧
  List.Pairwise (fun p q => ∀ x ∈ membersOf p, x ∉ membersOf q) plans

/-- The run never rewrites the bytes of a pre-existing inode: inode
numbers below the initial fresh counter keep their contents, and the
counter never decreases. -/
def contentsLow (fs0 fs : FS) : Prop :=
  fs0.nextIno ≤ fs.nextIno ∧
  ∀ i, i < fs0.nextIno → fs.contents i = fs0.contents i

theorem fkeyLe_trans (a b c : FPath) (h1 : fkeyLe a b = true)
    (h2 : fkeyLe b c = true) : fkeyLe a c = true := by
  simp only [fkeyLe, Bool.or_eq_true, Bool.and_eq_true, decide_eq_true_eq]
    at h1 h2 ⊢
  omega

theorem fkeyLe_total (a b : FPath) : (fkeyLe a b || fkeyLe b a) = true := by
  simp only [fkeyLe, Bool.or_eq_true, Bool.and_eq_true, decide_eq_true_eq]
  omega

theorem pairwise_le_getLast {α : Type} {le : α → α → Bool} :
    ∀ {l : List α}, l.Pairwise (fun a b => le a b = true) → ∀ (hne : l ≠ [])
      {a : α}, a ∈ l → a = l.getLast hne ∨ le a (l.getLast hne) = true := by
  intro l
  induction l with
  | nil => intro _ hne; exact absurd rfl hne
  | cons x t ih =>
    intro hp hne a ha
    cases t with
    | nil =>
      left
      simp only [List.mem_singleton] at ha
      simpa [List.getLast] using ha
    | cons y t' =>
      have hne' : y :: t' ≠ [] := by simp
      rw [List.getLast_cons hne']
      rcases List.mem_cons.mp ha with h | h
      · right
        subst h
        exact (List.pairwise_cons.mp hp).1 _ (List.getLast_mem hne')
      · exact ih (List.pairwise_cons.mp hp).2 hne' h

theorem sortFiles_perm (files : List FPath) : (sortFiles files).Perm files :=
  List.perm_insertionSort _ files

theorem sortFiles_sorted (files : List FPath) :
    (sortFiles files).Pairwise (fun a b => fkeyLe a b = true) := by
  haveI : IsTotal FPath (fun a b => fkeyLe a b = true) :=
    ⟨fun a b => by
      have h := fkeyLe_total a b
      rcases (Bool.or_eq_true _ _).mp h with h1 | h1
      · exact Or.inl h1
      · exact Or.inr h1⟩
  haveI : IsTrans FPath (fun a b => fkeyLe a b = true) :=
    ⟨fun a b c => fkeyLe_trans a b c⟩
  exact List.sorted_insertionSort _ files

theorem splitSurvivor_append (files : List FPath) (base : FPath)
    (rest : List FPath) (h : splitSurvivor files = some (base, rest)) :
    sortFiles files = rest ++ [base] := by
  unfold splitSurvivor at h
  rcases hg : (sortFiles files).getLast? with _ | b
  · rw [hg] at h; exact absurd h (by simp)
  · rw [hg] at h
    simp only [Option.some.injEq, Prod.mk.injEq] at h
    obtain ⟨hb, hr⟩ := h
    have hne : sortFiles files ≠ [] := by
      intro hnil; rw [hnil] at hg; exact absurd hg (by simp)
    have hlast : (sortFiles files).getLast hne = base := by
      have := List.getLast?_eq_getLast (sortFiles files) hne
      rw [this] at hg
      exact (Option.some.injEq _ _ ▸ hg.symm) ▸ hb
    rw [← hr, ← hlast]
    exact (List.dropLast_append_getLast hne).symm

theorem splitSurvivor_mem (files : List FPath) (base : FPath)
    (rest : List FPath) (h : splitSurvivor files = some (base, rest)) :
    base ∈ files := by
  have happ := splitSurvivor_append files base rest h
  have : base ∈ sortFiles files := by rw [happ]; simp
  exact (sortFiles_perm files).mem_iff.mp this

theorem splitSurvivor_rest_mem (files : List FPath) (base : FPath)
    (rest : List FPath) (h : splitSurvivor files = some (base, rest)) :
    ∀ f ∈ rest, f ∈ files := by
  intro f hf
  have happ := splitSurvivor_append files base rest h
  have : f ∈ sortFiles files := by rw [happ]; exact List.mem_append_left _ hf
  exact (sortFiles_perm files).mem_iff.mp this

theorem splitSurvivor_max (files : List FPath) (base : FPath)
    (rest : List FPath) (h : splitSurvivor files = some (base, rest)) :
    ∀ f ∈ files, f = base ∨ fkeyLe f base = true := by
  intro f hf
  have hmem : f ∈ sortFiles files := (sortFiles_perm files).mem_iff.mpr hf
  have hne : sortFiles files ≠ [] := by
    intro hnil
    rw [hnil] at hmem
    exact absurd hmem (by simp)
  have hlast : (sortFiles files).getLast hne = base := by
    have h1 := List.getLast?_eq_getLast (sortFiles files) hne
    unfold splitSurvivor at h
    rw [h1] at h
    simp only [Option.some.injEq, Prod.mk.injEq] at h
    exact h.1
  have := pairwise_le_getLast (sortFiles_sorted files) hne hmem
  rw [hlast] at this
  exact this

theorem splitSurvivor_nodup (files : List FPath) (base : FPath)
    (rest : List FPath) (hn : files.Nodup)
    (h : splitSurvivor files = some (base, rest)) :
    rest.Nodup ∧ base ∉ rest := by
  have happ := splitSurvivor_append files base rest h
  have hsn : (sortFiles files).Nodup := hn.perm (sortFiles_perm files).symm
  rw [happ] at hsn
  obtain ⟨h1, _, h3⟩ := List.nodup_append.mp hsn
  refine ⟨h1, fun hb => ?_⟩
  exact (h3 hb) (List.mem_singleton_self base)

theorem splitSurvivor_of_ne_nil (files : List FPath) (hne : files ≠ []) :
    ∃ base rest, splitSurvivor files = some (base, rest) := by
  have hsne : sortFiles files ≠ [] := by
    intro hnil
    apply hne
    have hlen := (sortFiles_perm files).length_eq
    rw [hnil] at hlen
    exact List.length_eq_zero.mp hlen.symm
  refine ⟨(sortFiles files).getLast hsne, (sortFiles files).dropLast, ?_⟩
  unfold splitSurvivor
  rw [List.getLast?_eq_getLast _ hsne]

/-- C1: the survivor chosen by `_link_files` is the last element of the
stable ascending sort of the members by (filename length, full-path
length); consequently its filename length is maximal, with full-path
length breaking ties.  `splitSurvivor` is a function of the member list,
so the choice is deterministic. -/
theorem c1_survivor_selection (files : List FPath) (base : FPath)
    (rest : List FPath) (h : splitSurvivor files = some (base, rest)) :
    base ∈ files ∧
    sortFiles files = rest ++ [base] ∧
    (∀ f ∈ files, f.name.length ≤ base.name.length ∧
      (f.name.length = base.name.length → f.full.length ≤ base.full.length)) := by
  refine ⟨splitSurvivor_mem files base rest h,
    splitSurvivor_append files base rest h, ?_⟩
  intro f hf
  rcases splitSurvivor_max files base rest h f hf with heq | hle
  · subst heq; exact ⟨le_refl _, fun _ => le_refl _⟩
  · simp only [fkeyLe, Bool.or_eq_true, Bool.and_eq_true,
      decide_eq_true_eq] at hle
    omega

/-- Witness for C1 on the specification's walkthrough scenario: among
`r/a.txt` and `r/dir/c.txt` (same filename length) the survivor is
`r/dir/c.txt`, the one with the longer full path. -/
theorem c1_survivor_selection_witness :
    splitSurvivor [pa, pc] = some (pc, [pa]) ∧ pc ∈ [pa, pc] ∧
      pa.name.length ≤ pc.name.length := by
  have h : splitSurvivor [pa, pc] = some (pc, [pa]) := by decide
  have hc := c1_survivor_selection [pa, pc] pc [pa] h
  exact ⟨h, hc.1, (hc.2.2 pa (by decide)).1⟩

/-- C5: a non-survivor that already shares the survivor's inode is skipped
by `_link_files` with no filesystem action and no statistics credit, in
real-run and dry-run mode alike (the `link` flag is arbitrary here). -/
theorem c5_already_linked_skipped (link symlink absolute : Bool)
    (orc : Oracle) (base : FPath) (baseSize : Nat) (links saved : Nat)
    (fs : FS) (f : FPath) (h : samefile fs base f = true) :
    processMember link symlink absolute orc base baseSize (links, saved, fs) f
      = (links, saved, fs) := by
  simp [processMember, h]

/-- Witness for C5: with `r/a.txt` and `r/b.txt` hardlinked to inode 1, the
member step leaves state and statistics untouched. -/
theorem c5_already_linked_skipped_witness :
    samefile fsLinked pa pb = true ∧
    processMember true false false orcOk pa 5 (0, 0, fsLinked) pb
      = (0, 0, fsLinked) :=
  ⟨by decide,
    c5_already_linked_skipped true false false orcOk pa 5 0 0 fsLinked pb
      (by decide)⟩

/-- C4: when the unlink of a non-survivor `f` succeeded but the hardlink
attempt failed (or was skipped in symlink-only mode) and the symlink
creation also fails, `_link_files` restores `f` by copying the survivor's
bytes to `f`'s path as a fresh file, credits nothing to the statistics
for `f`, and continues with the remaining members. -/
theorem c4_symlink_failure_restores (symlink absolute : Bool) (orc : Oracle)
    (base f : FPath) (baseSize : Nat) (links saved : Nat) (fs : FS)
    (rest : List FPath)
    (hsame : samefile fs base f = false)
    (hunlink : orc.unlinkFails f = false)
    (hhard : symlink = true ∨ orc.hardlinkFails f = true)
    (hsym : orc.symlinkFails f = true)
    (hbase : isRegFile fs base = true) :
    processMember true symlink absolute orc base baseSize
        (links, saved, fs) f
      = (links, saved, copyRestore (removeEntry fs f) base f) ∧
    fileContent (copyRestore (removeEntry fs f) base f) f
      = fileContent fs base ∧
    (copyRestore (removeEntry fs f) base f).entries f
      = some (Entry.regular fs.nextIno) ∧
    linkFilesLoop true symlink absolute orc base baseSize
        (links, saved, fs) (f :: rest)
      = linkFilesLoop true symlink absolute orc base baseSize
        (links, saved, copyRestore (removeEntry fs f) base f) rest := by
  have hbne : base ≠ f := by
    intro he
    rw [← he] at hsame
    unfold samefile at hsame
    unfold isRegFile at hbase
    rcases hi : inoOf fs base with _ | i
    · rw [hi] at hbase; simp at hbase
    · rw [hi] at hsame; simp at hsame
  have hstep : processMember true symlink absolute orc base baseSize
      (links, saved, fs) f
      = (links, saved, copyRestore (removeEntry fs f) base f) := by
    rcases hhard with h | h
    · simp [processMember, hsame, hunlink, hsym, h]
    · simp [processMember, hsame, hunlink, hsym, h]
  refine ⟨hstep, ?_, ?_, ?_⟩
  · simp [fileContent, inoOf, copyRestore, removeEntry, hbne]
  · simp [copyRestore, removeEntry]
  · unfold linkFilesLoop
    rw [List.foldl_cons, hstep]

/-- Witness for C4: survivor `r/dir/c.txt`, member `r/a.txt`, hardlink
forced to fail and symlink forced to fail; the member is restored with
the survivor's bytes and the loop goes on. -/
theorem c4_symlink_failure_restores_witness :
    samefile fsDemo pc pa = false ∧
    fileContent
      (copyRestore (removeEntry fsDemo pa) pc pa) pa
      = fileContent fsDemo pc :=
  ⟨by decide,
    (c4_symlink_failure_restores false false
      (Oracle.mk (fun _ => false) (fun _ => true) (fun _ => true))
      pc pa 5 0 0 fsDemo [] (by decide) (by decide) (Or.inr (by decide))
      (by decide) (by decide)).2.1⟩

/-- C3 (documenting a code defect): `_hash_file` installs no error handler,
so a per-file I/O error raised while hashing kills the worker thread of
`check_and_link` before it posts to `statsq`; the coordinator loop
`while wait_count: statsq.get()` then blocks forever.  On a concrete tree
where hashing `r/dir/c.txt` raises, the run hangs and never reaches its
summary, contradicting the claim that such an error only drops the file
and the run continues to completion. -/
theorem c3_hash_error_hangs_run :
    (linkSameFiles [pa, pb, pc] fsDemo none true false false orcOk
      (fun p => decide (p = pc))).hung = true ∧
    mainExitFiles true [pa, pb, pc] fsDemo none true false false orcOk
      (fun p => decide (p = pc)) = none := by
  constructor
  · decide
  · decide

theorem runSet_hung (link symlink absolute : Bool) (orc : Oracle)
    (st : RunSt) (s : List FPath) :
    (runSet link symlink absolute orc st s).hung = st.hung := by
  unfold runSet
  cases h : splitSurvivor s with
  | none => rfl
  | some pr => cases pr with | mk b rest => rfl

theorem runSets_hung (link symlink absolute : Bool) (orc : Oracle) :
    ∀ (sets : List (List FPath)) (st : RunSt),
      (sets.foldl (runSet link symlink absolute orc) st).hung = st.hung := by
  intro sets
  induction sets with
  | nil => intro st; rfl
  | cons s t ih =>
    intro st
    rw [List.foldl_cons, ih, runSet_hung]

theorem runBucket_hung (link symlink absolute : Bool) (orc : Oracle)
    (how : FPath → Bool) (st : RunSt) (b : List FPath)
    (hhash : ∀ p, how p = false) :
    (runBucket link symlink absolute orc how st b).hung = st.hung := by
  unfold runBucket checkSame
  have hany : b.any how = false := by
    rw [List.any_eq_false]
    intro x _
    simp [hhash x]
  rw [hany]
  simp only [Bool.false_eq_true, if_false]
  exact runSets_hung link symlink absolute orc _ st

theorem linkSameFiles_not_hung (tree : List FPath) (fs0 : FS)
    (pat : Option (String → Bool)) (link symlink absolute : Bool)
    (orc : Oracle) (how : FPath → Bool) (hhash : ∀ p, how p = false) :
    (linkSameFiles tree fs0 pat link symlink absolute orc how).hung
      = false := by
  unfold linkSameFiles
  generalize multiBuckets fs0 (scanFiles fs0 tree pat) = bs
  have : ∀ (bs : List (List FPath)) (st : RunSt),
      (bs.foldl (runBucket link symlink absolute orc how) st).hung
        = st.hung := by
    intro bs
    induction bs with
    | nil => intro st; rfl
    | cons b t ih =>
      intro st
      rw [List.foldl_cons, ih, runBucket_hung _ _ _ _ _ _ _ hhash]
  rw [this]

theorem collectSame_eq (how : FPath → Bool) (fs : FS) (upSize : Nat)
    (upHash : String) (pat : Option (String → Bool))
    (hhash : ∀ p, how p = false) :
    ∀ tree : List FPath,
      collectSame how fs upSize upHash pat tree = Except.ok
        (tree.filter fun p => isRegFile fs p && (getsize fs p == upSize) &&
          patOk pat p && (fileContent fs p == upHash)) := by
  intro tree
  induction tree with
  | nil => rfl
  | cons p rest ih =>
    rw [List.filter_cons]
    unfold collectSame
    rw [hashFile, hhash p]
    cases hr : isRegFile fs p with
    | false => simp [hr, ih]
    | true =>
      cases hsz : getsize fs p == upSize with
      | false => simp [hr, hsz, ih, bne]
      | true =>
        cases hp : patOk pat p with
        | false => simp [hr, hsz, hp, ih]
        | true =>
          cases hh : fileContent fs p == upHash with
          | false => simp [hr, hsz, hp, hh, ih, bne]
          | true => simp [hr, hsz, hp, hh, ih, bne]

/-- C9: configuration errors (invalid root, update target missing or not a
regular file, empty update target) make the run return an error string
before scanning or linking anything, and `main` exits with status 1;
whereas a run that completes (no hashing error, however many per-file
link failures the oracle injects) always exits with status 0. -/
theorem c9_exit_codes (tree : List FPath) (fs0 : FS)
    (pat : Option (String → Bool)) (link symlink absolute : Bool)
    (orc : Oracle) (how : FPath → Bool) (upd : FPath) :
    (linkSameFilesTop false tree fs0 pat link symlink absolute orc how
        = Except.error "is not a directory" ∧
      mainExitFiles false tree fs0 pat link symlink absolute orc how
        = some 1) ∧
    (∃ msg, linkSameUpdate true upd false tree fs0 pat link symlink absolute
        orc how = UpdOutcome.configError msg) ∧
    (isRegFile fs0 upd = false ∨ getsize fs0 upd = 0 →
      (∃ msg, linkSameUpdate true upd true tree fs0 pat link symlink
          absolute orc how = UpdOutcome.configError msg) ∧
      mainExitUpdate true upd true tree fs0 pat link symlink absolute orc
        how = 1) ∧
    ((∀ p, how p = false) →
      mainExitFiles true tree fs0 pat link symlink absolute orc how
        = some 0 ∧
      (isRegFile fs0 upd = true → getsize fs0 upd ≠ 0 →
        mainExitUpdate true upd true tree fs0 pat link symlink absolute orc
          how = 0)) := by
  refine ⟨⟨rfl, rfl⟩, ⟨"is not a directory", rfl⟩, ?_, ?_⟩
  · intro hbad
    cases hr : isRegFile fs0 upd with
    | false =>
      refine ⟨⟨"is not a file", ?_⟩, ?_⟩ <;>
        simp [linkSameUpdate, mainExitUpdate, hr]
    | true =>
      have hz : getsize fs0 upd = 0 := by
        rcases hbad with h | h
        · rw [hr] at h; exact absurd h (by simp)
        · exact h
      refine ⟨⟨"is empty", ?_⟩, ?_⟩ <;>
        simp [linkSameUpdate, mainExitUpdate, hr, hz]
  · intro hhash
    constructor
    · unfold mainExitFiles linkSameFilesTop
      simp only [Bool.not_true, Bool.false_eq_true, if_false]
      rw [linkSameFiles_not_hung tree fs0 pat link symlink absolute orc how
        hhash]
      rfl
    · intro hreg hsz
      have hz : (getsize fs0 upd == 0) = false := by
        simp [hsz]
      simp only [linkSameUpdate, mainExitUpdate, hreg, hz, hashFile,
        hhash upd, collectSame_eq how fs0 (getsize fs0 upd)
          (fileContent fs0 upd) pat hhash tree, Bool.not_true,
        Bool.false_eq_true, if_false, ite_false, ite_true]
      by_cases hc : 1 < (upd :: List.filter (fun p => isRegFile fs0 p &&
          (getsize fs0 p == getsize fs0 upd) && patOk pat p &&
          (fileContent fs0 p == fileContent fs0 upd)) tree).length
      · rw [if_pos hc]
      · rw [if_neg hc]
/-- Witness for C9: bad root exits 1; a missing update target exits 1; a
run in which every unlink fails still completes and exits 0. -/
theorem c9_exit_codes_witness :
    mainExitFiles false [pa, pb, pc] fsDemo none true false false orcOk
      howOk = some 1 ∧
    mainExitUpdate true (FPath.mk "x" "nope.bin") true [pa, pb, pc] fsDemo
      none true false false orcOk howOk = 1 ∧
    mainExitFiles true [pa, pb, pc] fsDemo none true false false orcNoUnlink
      howOk = some 0 :=
  ⟨(c9_exit_codes [pa, pb, pc] fsDemo none true false false orcOk howOk
      (FPath.mk "x" "nope.bin")).1.2,
    ((c9_exit_codes [pa, pb, pc] fsDemo none true false false orcOk howOk
      (FPath.mk "x" "nope.bin")).2.2.1 (Or.inl (by decide))).2,
    ((c9_exit_codes [pa, pb, pc] fsDemo none true false false orcNoUnlink
      howOk (FPath.mk "x" "nope.bin")).2.2.2 (fun p => rfl)).1⟩

theorem exists_other_of_two_le {α : Type} {l : List α} (hn : l.Nodup)
    (hl : 2 ≤ l.length) {f : α} (hf : f ∈ l) : ∃ g ∈ l, g ≠ f := by
  cases l with
  | nil => simp at hl
  | cons x t =>
    cases t with
    | nil => simp at hl
    | cons y t' =>
      rcases List.mem_cons.mp hf with h | _
      · subst h
        refine ⟨y, by simp, fun he => ?_⟩
        have := (List.nodup_cons.mp hn).1
        rw [he] at this
        exact this (List.mem_cons_self _ _)
      · refine ⟨x, by simp, fun he => ?_⟩
        subst he
        have := (List.nodup_cons.mp hn).1
        exact this (by assumption)

/-- C7: no digest is computed for a file unless another scanned file shares
its size (singleton size buckets are never dispatched for hashing), and
every group `_check_same` emits has at least two members, so every
LinkableSet handed to `_link_files` does. -/
theorem c7_singleton_pruning (fs0 : FS) (tree : List FPath)
    (pat : Option (String → Bool)) (hnodup : tree.Nodup) :
    (∀ f ∈ hashedFiles fs0 tree pat,
      ∃ g ∈ scanFiles fs0 tree pat, g ≠ f ∧
        getsize fs0 g = getsize fs0 f) ∧
    (∀ (how : FPath → Bool) (fs : FS) (b : List FPath)
      (sets : List (List FPath)), checkSame how fs b = Except.ok sets →
      ∀ s ∈ sets, 2 ≤ s.length) := by
  constructor
  · intro f hf
    obtain ⟨b, hb, hfb⟩ := List.mem_flatten.mp hf
    obtain ⟨hbs, hblen⟩ := List.mem_filter.mp hb
    obtain ⟨sz, _, hbeq⟩ := List.mem_map.mp hbs
    have hblen' : 2 ≤ b.length := of_decide_eq_true hblen
    have hbnodup : b.Nodup := by
      rw [← hbeq]
      exact (hnodup.filter _).filter _
    obtain ⟨g, hg, hgf⟩ := exists_other_of_two_le hbnodup hblen' hfb
    have hmem : ∀ x ∈ b, x ∈ scanFiles fs0 tree pat ∧
        getsize fs0 x = sz := by
      intro x hx
      rw [← hbeq] at hx
      obtain ⟨hx1, hx2⟩ := List.mem_filter.mp hx
      exact ⟨hx1, by simpa using hx2⟩
    obtain ⟨hg1, hg2⟩ := hmem g hg
    obtain ⟨_, hf2⟩ := hmem f hfb
    exact ⟨g, hg1, hgf, by rw [hg2, hf2]⟩
  · intro how fs b sets hok s hs
    unfold checkSame at hok
    by_cases hany : b.any how = true
    · rw [if_pos hany] at hok
      exact absurd hok (by simp)
    · rw [if_neg hany] at hok
      have hsets : sets = sameGroups fs b := by
        injection hok with h
        exact h.symm
      rw [hsets] at hs
      unfold sameGroups at hs
      have := (List.mem_filter.mp hs).2
      have h1 : 1 < s.length := of_decide_eq_true this
      omega

/-- Witness for C7: in the sample tree all three files share size 5, so
`r/a.txt` is hashed and another scanned file of the same size exists; and
`_check_same` on that bucket emits only the two-member group. -/
theorem c7_singleton_pruning_witness :
    (∃ g ∈ scanFiles fsDemo [pa, pb, pc] none, g ≠ pa ∧
      getsize fsDemo g = getsize fsDemo pa) ∧
    checkSame howOk fsDemo [pa, pb, pc] = Except.ok [[pa, pc]] ∧
    2 ≤ ([pa, pc] : List FPath).length :=
  ⟨(c7_singleton_pruning fsDemo [pa, pb, pc] none (by decide)).1 pa
      (by decide),
    by rfl,
    (c7_singleton_pruning fsDemo [pa, pb, pc] none (by decide)).2 howOk
      fsDemo [pa, pb, pc] [[pa, pc]] (by rfl) [pa, pc] (by decide)⟩
/-- C6: in update mode with a valid target, the run completes and its
single LinkableSet is the target plus exactly the regular non-symlink
tree files other than the target whose size and digest equal the
target's (and that match the pattern); `_link_files` is applied to that
whole set, so the usual survivor selection governs it uniformly and the
target itself may end up among the replaced members. -/
theorem c6_update_set (upd : FPath) (tree : List FPath) (fs0 : FS)
    (pat : Option (String → Bool)) (link symlink absolute : Bool)
    (orc : Oracle) (how : FPath → Bool)
    (hreg : isRegFile fs0 upd = true) (hsz : getsize fs0 upd ≠ 0)
    (hhash : ∀ p, how p = false) :
    ∃ res, linkSameUpdate true upd true tree fs0 pat link symlink absolute
        orc how = UpdOutcome.done res ∧
      res.same = upd :: (tree.filter fun p => isRegFile fs0 p &&
        (getsize fs0 p == getsize fs0 upd) && patOk pat p &&
        (fileContent fs0 p == fileContent fs0 upd)) ∧
      (∀ x, x ∈ res.same ↔ (x = upd ∨ (x ∈ tree ∧ isRegFile fs0 x = true ∧
        getsize fs0 x = getsize fs0 upd ∧ patOk pat x = true ∧
        fileContent fs0 x = fileContent fs0 upd ∧ x ≠ upd))) ∧
      (1 < res.same.length →
        res.plan = splitSurvivor res.same ∧
        (res.links, res.saved, res.fs)
          = linkFiles link symlink absolute orc fs0 res.same) := by
  have hz : (getsize fs0 upd == 0) = false := by simp [hsz]
  set flt := tree.filter fun p => isRegFile fs0 p &&
    (getsize fs0 p == getsize fs0 upd) && patOk pat p &&
    (fileContent fs0 p == fileContent fs0 upd) with hflt
  have hmem : ∀ x, x ∈ (upd :: flt) ↔ (x = upd ∨ (x ∈ tree ∧
      isRegFile fs0 x = true ∧ getsize fs0 x = getsize fs0 upd ∧
      patOk pat x = true ∧ fileContent fs0 x = fileContent fs0 upd ∧
      x ≠ upd)) := by
    intro x
    constructor
    · intro hx
      rcases List.mem_cons.mp hx with h | h
      · exact Or.inl h
      · by_cases he : x = upd
        · exact Or.inl he
        · obtain ⟨h1, h2⟩ := List.mem_filter.mp h
          simp only [Bool.and_eq_true, beq_iff_eq] at h2
          exact Or.inr ⟨h1, h2.1.1.1, h2.1.1.2, h2.1.2, h2.2, he⟩
    · intro hx
      rcases hx with h | ⟨h1, h2, h3, h4, h5, _⟩
      · exact h ▸ List.mem_cons_self _ _
      · refine List.mem_cons_of_mem _ (List.mem_filter.mpr ⟨h1, ?_⟩)
        simp only [Bool.and_eq_true, beq_iff_eq]
        exact ⟨⟨⟨h2, h3⟩, h4⟩, h5⟩
  by_cases hc : 1 < (upd :: flt).length
  · refine ⟨UpdRes.mk (linkFiles link symlink absolute orc fs0 (upd :: flt)).1
      (linkFiles link symlink absolute orc fs0 (upd :: flt)).2.1
      (linkFiles link symlink absolute orc fs0 (upd :: flt)).2.2
      (splitSurvivor (upd :: flt)) (upd :: flt), ?_, rfl, hmem, ?_⟩
    · simp only [linkSameUpdate, hreg, hz, Bool.not_true, Bool.false_eq_true,
        if_false, ite_false, ite_true, hashFile, hhash upd,
        collectSame_eq how fs0 (getsize fs0 upd) (fileContent fs0 upd) pat
          hhash tree, ← hflt]
      rw [if_pos hc]
    · intro _
      exact ⟨rfl, rfl⟩
  · refine ⟨UpdRes.mk 0 0 fs0 none (upd :: flt), ?_, rfl, hmem, ?_⟩
    · simp only [linkSameUpdate, hreg, hz, Bool.not_true, Bool.false_eq_true,
        if_false, ite_false, ite_true, hashFile, hhash upd,
        collectSame_eq how fs0 (getsize fs0 upd) (fileContent fs0 upd) pat
          hhash tree, ← hflt]
      rw [if_neg hc]
    · intro h
      exact absurd h hc

/-- Witness for C6: the external target `x/up.txt` ("dup") matches two tree
files; the set has exactly the 3 members including the target, and the
survivor is `r/archive.bin` (longest filename), so the target itself is
among the replaced members. -/
theorem c6_update_set_witness :
    (∃ res, linkSameUpdate true pu true [pd1, pd2] fsUpd none true false
        false orcOk howOk = UpdOutcome.done res ∧
      res.same = [pu, pd1, pd2]) ∧
    splitSurvivor [pu, pd1, pd2] = some (pd2, [pu, pd1]) := by
  constructor
  · obtain ⟨res, hdone, hsame, _⟩ := c6_update_set pu [pd1, pd2] fsUpd none
      true false false orcOk howOk (by decide) (by decide) (fun p => rfl)
    refine ⟨res, hdone, ?_⟩
    rw [hsame]
    rfl
  · decide
theorem inoOf_congr {fs1 fs2 : FS} {p : FPath}
    (h : fs1.entries p = fs2.entries p) : inoOf fs1 p = inoOf fs2 p := by
  unfold inoOf
  rw [h]

theorem samefile_congr {fs1 fs2 : FS} {a b : FPath}
    (ha : fs1.entries a = fs2.entries a)
    (hb : fs1.entries b = fs2.entries b) :
    samefile fs1 a b = samefile fs2 a b := by
  unfold samefile
  rw [inoOf_congr ha, inoOf_congr hb]

theorem fileContent_congr {fs1 fs2 : FS} {p : FPath}
    (h : fs1.entries p = fs2.entries p) (hc : fs1.contents = fs2.contents) :
    fileContent fs1 p = fileContent fs2 p := by
  unfold fileContent
  rw [inoOf_congr h, hc]

theorem getsize_congr {fs1 fs2 : FS} {p : FPath}
    (h : fs1.entries p = fs2.entries p) (hc : fs1.contents = fs2.contents) :
    getsize fs1 p = getsize fs2 p := by
  unfold getsize
  rw [fileContent_congr h hc]

theorem samefile_of_ino {fs : FS} {a b : FPath} {i : Nat}
    (ha : inoOf fs a = some i) (hb : inoOf fs b = some i) :
    samefile fs a b = true := by
  unfold samefile
  rw [ha, hb]
  simp

theorem ne_of_not_samefile {fs : FS} {base f : FPath}
    (hb : (inoOf fs base).isSome = true) (h : samefile fs base f = false) :
    base ≠ f := by
  intro he
  rcases hi : inoOf fs base with _ | i
  · rw [hi] at hb
    simp at hb
  · rw [← he] at h
    rw [samefile_of_ino hi hi] at h
    simp at h

theorem entries_removeEntry_ne {fs : FS} {p q : FPath} (h : q ≠ p) :
    (removeEntry fs p).entries q = fs.entries q := by
  simp [removeEntry, h]

theorem entries_setEntry_ne {fs : FS} {p q : FPath} {e : Entry}
    (h : q ≠ p) : (setEntry fs p e).entries q = fs.entries q := by
  simp [setEntry, h]

theorem entries_copyRestore_ne {fs : FS} {base p q : FPath} (h : q ≠ p) :
    (copyRestore fs base p).entries q = fs.entries q := by
  simp [copyRestore, h]

theorem entries_setEntry_self {fs : FS} {p : FPath} {e : Entry} :
    (setEntry fs p e).entries p = some e := by
  simp [setEntry]

theorem contents_setEntry {fs : FS} {p : FPath} {e : Entry} :
    (setEntry fs p e).contents = fs.contents := rfl

theorem contents_removeEntry {fs : FS} {p : FPath} :
    (removeEntry fs p).contents = fs.contents := rfl

theorem nextIno_setEntry {fs : FS} {p : FPath} {e : Entry} :
    (setEntry fs p e).nextIno = fs.nextIno := rfl

theorem nextIno_removeEntry {fs : FS} {p : FPath} :
    (removeEntry fs p).nextIno = fs.nextIno := rfl

theorem inoOf_removeEntry_ne {fs : FS} {p q : FPath} (h : q ≠ p) :
    inoOf (removeEntry fs p) q = inoOf fs q :=
  inoOf_congr (entries_removeEntry_ne h)

theorem pm_entries_ne (link symlink absolute : Bool) (orc : Oracle)
    (base : FPath) (bsz l0 s0 : Nat) (fs : FS) (f q : FPath) (hq : q ≠ f) :
    ((processMember link symlink absolute orc base bsz (l0, s0, fs) f).2.2).entries q
      = fs.entries q := by
  cases h1 : samefile fs base f with
  | true => simp [processMember, h1]
  | false =>
    cases link with
    | false => simp [processMember, h1]
    | true =>
      cases h3 : orc.unlinkFails f with
      | true => simp [processMember, h1, h3]
      | false =>
        cases h4 : (if symlink then none
            else if orc.hardlinkFails f then none
            else inoOf (removeEntry fs f) base) with
        | some i =>
          simp [processMember, h1, h3, h4, entries_setEntry_ne hq,
            entries_removeEntry_ne hq]
        | none =>
          cases h5 : orc.symlinkFails f with
          | true =>
            simp [processMember, h1, h3, h4, h5, entries_copyRestore_ne hq,
              entries_removeEntry_ne hq]
          | false =>
            simp [processMember, h1, h3, h4, h5, entries_setEntry_ne hq,
              entries_removeEntry_ne hq]

theorem pm_contents_nextIno (link symlink absolute : Bool) (orc : Oracle)
    (base : FPath) (bsz l0 s0 : Nat) (fs : FS) (f : FPath)
    (h5 : orc.symlinkFails f = false) :
    ((processMember link symlink absolute orc base bsz (l0, s0, fs) f).2.2).contents
      = fs.contents ∧
    ((processMember link symlink absolute orc base bsz (l0, s0, fs) f).2.2).nextIno
      = fs.nextIno := by
  cases h1 : samefile fs base f with
  | true => simp [processMember, h1]
  | false =>
    cases link with
    | false => simp [processMember, h1]
    | true =>
      cases h3 : orc.unlinkFails f with
      | true => simp [processMember, h1, h3]
      | false =>
        cases h4 : (if symlink then none
            else if orc.hardlinkFails f then none
            else inoOf (removeEntry fs f) base) with
        | some i =>
          simp [processMember, h1, h3, h4, contents_setEntry,
            contents_removeEntry, nextIno_setEntry, nextIno_removeEntry]
        | none =>
          simp [processMember, h1, h3, h4, h5, contents_setEntry,
            contents_removeEntry, nextIno_setEntry, nextIno_removeEntry]

theorem pm_dry (symlink absolute : Bool) (orc : Oracle) (base : FPath)
    (bsz l0 s0 : Nat) (fs : FS) (f : FPath) :
    processMember false symlink absolute orc base bsz (l0, s0, fs) f
      = if samefile fs base f then (l0, s0, fs)
        else (l0 + 1, s0 + bsz, fs) := by
  cases h1 : samefile fs base f <;> simp [processMember, h1]

theorem pm_real_nofail (symlink absolute : Bool) (orc : Oracle)
    (base f : FPath) (bsz l0 s0 : Nat) (fs : FS) (ib : Nat)
    (hnf1 : orc.unlinkFails f = false) (hnf2 : orc.hardlinkFails f = false)
    (hnf3 : orc.symlinkFails f = false)
    (hbase : inoOf fs base = some ib)
    (hsame : samefile fs base f = false) :
    (processMember true symlink absolute orc base bsz (l0, s0, fs) f).1
        = l0 + 1 ∧
    (processMember true symlink absolute orc base bsz (l0, s0, fs) f).2.1
        = s0 + bsz ∧
    ((processMember true symlink absolute orc base bsz (l0, s0, fs) f).2.2).contents
        = fs.contents ∧
    ((processMember true symlink absolute orc base bsz (l0, s0, fs) f).2.2).nextIno
        = fs.nextIno ∧
    ((processMember true symlink absolute orc base bsz (l0, s0, fs) f).2.2).entries f
        = (if symlink then
            some (Entry.symlink (symlinkSource absolute base f))
          else some (Entry.regular ib)) ∧
    (∀ q, q ≠ f →
      ((processMember true symlink absolute orc base bsz (l0, s0, fs) f).2.2).entries q
        = fs.entries q) := by
  have hbne : base ≠ f :=
    ne_of_not_samefile (by rw [hbase]; rfl) hsame
  have hrm : inoOf (removeEntry fs f) base = some ib := by
    rw [inoOf_removeEntry_ne hbne, hbase]
  cases symlink with
  | true =>
    refine ⟨?_, ?_, ?_, ?_, ?_, fun q hq => ?_⟩ <;>
      simp [processMember, hsame, hnf1, hnf3, contents_setEntry,
        contents_removeEntry, nextIno_setEntry, nextIno_removeEntry,
        entries_setEntry_self]
    rw [entries_setEntry_ne hq, entries_removeEntry_ne hq]
  | false =>
    refine ⟨?_, ?_, ?_, ?_, ?_, fun q hq => ?_⟩ <;>
      simp [processMember, hsame, hnf1, hnf2, hrm, contents_setEntry,
        contents_removeEntry, nextIno_setEntry, nextIno_removeEntry,
        entries_setEntry_self]
    rw [entries_setEntry_ne hq, entries_removeEntry_ne hq]
theorem pm_same (link symlink absolute : Bool) (orc : Oracle)
    (base : FPath) (bsz l0 s0 : Nat) (fs : FS) (f : FPath)
    (h : samefile fs base f = true) :
    processMember link symlink absolute orc base bsz (l0, s0, fs) f
      = (l0, s0, fs) := by
  simp [processMember, h]

theorem linkFilesLoop_cons (link symlink absolute : Bool) (orc : Oracle)
    (base : FPath) (bsz : Nat) (acc : Nat × Nat × FS) (f : FPath)
    (t : List FPath) :
    linkFilesLoop link symlink absolute orc base bsz acc (f :: t)
      = linkFilesLoop link symlink absolute orc base bsz
          (processMember link symlink absolute orc base bsz acc f) t := rfl

theorem loop_entries_not_mem (link symlink absolute : Bool) (orc : Oracle)
    (base : FPath) (bsz : Nat) :
    ∀ (rest : List FPath) (l0 s0 : Nat) (fs : FS) (q : FPath), q ∉ rest →
      ((linkFilesLoop link symlink absolute orc base bsz (l0, s0, fs) rest).2.2).entries q
        = fs.entries q := by
  intro rest
  induction rest with
  | nil => intro l0 s0 fs q _; rfl
  | cons f t ih =>
    intro l0 s0 fs q hq
    have hq1 : q ≠ f := fun h => hq (by rw [h]; exact List.mem_cons_self f t)
    have hq2 : q ∉ t := fun h => hq (List.mem_cons_of_mem f h)
    rw [linkFilesLoop_cons]
    rcases hpm : processMember link symlink absolute orc base bsz
      (l0, s0, fs) f with ⟨a, b, fs1⟩
    rw [ih a b fs1 q hq2]
    have h2 := pm_entries_ne link symlink absolute orc base bsz l0 s0 fs f q
      hq1
    rw [hpm] at h2
    exact h2

theorem loop_contents_nextIno (link symlink absolute : Bool) (orc : Oracle)
    (base : FPath) (bsz : Nat) :
    ∀ (rest : List FPath) (l0 s0 : Nat) (fs : FS),
      (∀ f ∈ rest, orc.symlinkFails f = false) →
      ((linkFilesLoop link symlink absolute orc base bsz (l0, s0, fs) rest).2.2).contents
          = fs.contents ∧
      ((linkFilesLoop link symlink absolute orc base bsz (l0, s0, fs) rest).2.2).nextIno
          = fs.nextIno := by
  intro rest
  induction rest with
  | nil => intro l0 s0 fs _; exact ⟨rfl, rfl⟩
  | cons f t ih =>
    intro l0 s0 fs hnf
    rw [linkFilesLoop_cons]
    rcases hpm : processMember link symlink absolute orc base bsz
      (l0, s0, fs) f with ⟨a, b, fs1⟩
    have h2 := pm_contents_nextIno link symlink absolute orc base bsz l0 s0
      fs f (hnf f (List.mem_cons_self f t))
    rw [hpm] at h2
    have h3 := ih a b fs1 (fun g hg => hnf g (List.mem_cons_of_mem f hg))
    exact ⟨h3.1.trans h2.1, h3.2.trans h2.2⟩

theorem loop_dry (symlink absolute : Bool) (orc : Oracle) (base : FPath)
    (bsz : Nat) :
    ∀ (rest : List FPath) (l0 s0 : Nat) (fs : FS),
      linkFilesLoop false symlink absolute orc base bsz (l0, s0, fs) rest
        = (l0 + (rest.filter fun f => !samefile fs base f).length,
           s0 + (rest.filter fun f => !samefile fs base f).length * bsz,
           fs) := by
  intro rest
  induction rest with
  | nil => intro l0 s0 fs; simp [linkFilesLoop]
  | cons f t ih =>
    intro l0 s0 fs
    rw [linkFilesLoop_cons, pm_dry]
    cases h : samefile fs base f with
    | true =>
      rw [if_pos rfl, ih, List.filter_cons]
      simp [h]
    | false =>
      rw [if_neg (by simp), ih, List.filter_cons]
      simp only [h, Bool.not_false, if_true, List.length_cons, ite_true]
      refine Prod.ext ?_ (Prod.ext ?_ rfl) <;> simp <;> ring
theorem loop_real_nofail (symlink absolute : Bool) (orc : Oracle)
    (base : FPath) (bsz : Nat) (fsA : FS) (ib : Nat)
    (hnf : noFailures orc) (hbase : inoOf fsA base = some ib) :
    ∀ (rest : List FPath) (l0 s0 : Nat) (fs : FS),
      rest.Nodup → base ∉ rest →
      fs.entries base = fsA.entries base →
      (∀ x ∈ rest, fs.entries x = fsA.entries x) →
      (linkFilesLoop true symlink absolute orc base bsz (l0, s0, fs) rest).1
          = l0 + (rest.filter fun f => !samefile fsA base f).length ∧
      (linkFilesLoop true symlink absolute orc base bsz (l0, s0, fs) rest).2.1
          = s0 + (rest.filter fun f => !samefile fsA base f).length * bsz ∧
      ((linkFilesLoop true symlink absolute orc base bsz (l0, s0, fs) rest).2.2).contents
          = fs.contents ∧
      ((linkFilesLoop true symlink absolute orc base bsz (l0, s0, fs) rest).2.2).nextIno
          = fs.nextIno ∧
      (∀ q, q ∉ rest →
        ((linkFilesLoop true symlink absolute orc base bsz (l0, s0, fs) rest).2.2).entries q
          = fs.entries q) ∧
      (∀ f ∈ rest,
        ((linkFilesLoop true symlink absolute orc base bsz (l0, s0, fs) rest).2.2).entries f
          = (if samefile fsA base f then fs.entries f
             else if symlink then
               some (Entry.symlink (symlinkSource absolute base f))
             else some (Entry.regular ib))) := by
  intro rest
  induction rest with
  | nil =>
    intro l0 s0 fs _ _ _ _
    exact ⟨by simp [linkFilesLoop], by simp [linkFilesLoop], rfl, rfl,
      fun q _ => rfl, fun f hf => absurd hf (List.not_mem_nil f)⟩
  | cons f t ih =>
    intro l0 s0 fs hnd hb hagb hagr
    have hndt : t.Nodup := (List.nodup_cons.mp hnd).2
    have hft : f ∉ t := (List.nodup_cons.mp hnd).1
    have hbt : base ∉ t := fun h => hb (List.mem_cons_of_mem f h)
    have hbf : base ≠ f := fun h => hb (by rw [h]; exact List.mem_cons_self f t)
    have hagf : fs.entries f = fsA.entries f :=
      hagr f (List.mem_cons_self f t)
    have hsame : samefile fs base f = samefile fsA base f :=
      samefile_congr hagb hagf
    rw [linkFilesLoop_cons]
    cases hsf : samefile fsA base f with
    | true =>
      rw [pm_same true symlink absolute orc base bsz l0 s0 fs f
        (hsame.trans hsf)]
      obtain ⟨i1, i2, i3, i4, i5, i6⟩ := ih l0 s0 fs hndt hbt hagb
        (fun x hx => hagr x (List.mem_cons_of_mem f hx))
      refine ⟨?_, ?_, i3, i4, ?_, ?_⟩
      · rw [i1, List.filter_cons]
        simp [hsf]
      · rw [i2, List.filter_cons]
        simp [hsf]
      · intro q hq
        exact i5 q (fun h => hq (List.mem_cons_of_mem f h))
      · intro g hg
        rcases List.mem_cons.mp hg with h | h
        · subst h
          rw [i5 g hft, hsf, if_pos rfl]
        · exact i6 g h
    | false =>
      have hbase' : inoOf fs base = some ib := by
        rw [inoOf_congr hagb]
        exact hbase
      obtain ⟨e1, e2, e3, e4, e5, e6⟩ := pm_real_nofail symlink absolute orc
        base f bsz l0 s0 fs ib (hnf f).1 (hnf f).2.1 (hnf f).2.2 hbase'
        (hsame.trans hsf)
      rcases hpm : processMember true symlink absolute orc base bsz
        (l0, s0, fs) f with ⟨a, b, fs1⟩
      rw [hpm] at e1 e2 e3 e4 e5 e6
      simp only at e1 e2 e3 e4 e5 e6
      subst e1
      subst e2
      obtain ⟨i1, i2, i3, i4, i5, i6⟩ := ih (l0 + 1) (s0 + bsz) fs1 hndt hbt
        (by rw [e6 base hbf]; exact hagb)
        (fun x hx => by
          rw [e6 x (fun he => hft (he ▸ hx))]
          exact hagr x (List.mem_cons_of_mem f hx))
      refine ⟨?_, ?_, i3.trans e3, i4.trans e4, ?_, ?_⟩
      · rw [i1, List.filter_cons]
        simp [hsf]
        omega
      · rw [i2, List.filter_cons]
        simp [hsf]
        ring
      · intro q hq
        have hq1 : q ≠ f := fun h => hq (by rw [h]; exact List.mem_cons_self f t)
        have hq2 : q ∉ t := fun h => hq (List.mem_cons_of_mem f h)
        rw [i5 q hq2, e6 q hq1]
      · intro g hg
        rcases List.mem_cons.mp hg with h | h
        · subst h
          rw [i5 g hft, e5, hsf]
          simp
        · have hgf : g ≠ f := fun he => hft (he ▸ h)
          rw [i6 g h]
          cases hsg : samefile fsA base g with
          | true => simp only [if_pos rfl, e6 g hgf]
          | false => rfl
theorem sameGroups_congr {fs1 fs2 : FS} {b : List FPath}
    (h : ∀ x ∈ b, fileContent fs1 x = fileContent fs2 x) :
    sameGroups fs1 b = sameGroups fs2 b := by
  unfold sameGroups
  have hm : (b.map fun p => fileContent fs1 p)
      = b.map fun p => fileContent fs2 p := List.map_congr_left h
  rw [hm]
  congr 1
  apply List.map_congr_left
  intro d _
  apply List.filter_congr
  intro x hx
  rw [h x hx]

theorem checkSame_ok {how : FPath → Bool} (fs : FS) (b : List FPath)
    (hhash : ∀ p, how p = false) :
    checkSame how fs b = Except.ok (sameGroups fs b) := by
  unfold checkSame
  have hany : b.any how = false := by
    rw [List.any_eq_false]
    intro x _
    simp [hhash x]
  rw [hany]
  simp

theorem sameGroups_sub {fs : FS} {b s : List FPath}
    (hs : s ∈ sameGroups fs b) : ∀ x ∈ s, x ∈ b := by
  intro x hx
  unfold sameGroups at hs
  obtain ⟨hs1, _⟩ := List.mem_filter.mp hs
  obtain ⟨d, _, hd⟩ := List.mem_map.mp hs1
  rw [← hd] at hx
  exact (List.mem_filter.mp hx).1

theorem sameGroups_two_le {fs : FS} {b s : List FPath}
    (hs : s ∈ sameGroups fs b) : 2 ≤ s.length := by
  unfold sameGroups at hs
  have := (List.mem_filter.mp hs).2
  have h1 : 1 < s.length := of_decide_eq_true this
  omega

theorem sameGroups_nodup {fs : FS} {b s : List FPath} (hb : b.Nodup)
    (hs : s ∈ sameGroups fs b) : s.Nodup := by
  unfold sameGroups at hs
  obtain ⟨hs1, _⟩ := List.mem_filter.mp hs
  obtain ⟨d, _, hd⟩ := List.mem_map.mp hs1
  rw [← hd]
  exact hb.filter _

theorem sameGroups_content {fs : FS} {b s : List FPath}
    (hs : s ∈ sameGroups fs b) :
    ∀ x ∈ s, ∀ y ∈ s, fileContent fs x = fileContent fs y := by
  intro x hx y hy
  unfold sameGroups at hs
  obtain ⟨hs1, _⟩ := List.mem_filter.mp hs
  obtain ⟨d, _, hd⟩ := List.mem_map.mp hs1
  rw [← hd] at hx hy
  have h1 := (List.mem_filter.mp hx).2
  have h2 := (List.mem_filter.mp hy).2
  rw [beq_iff_eq] at h1 h2
  rw [h1, h2]

theorem sameGroups_pairwise (fs : FS) (b : List FPath) :
    List.Pairwise (fun s t => ∀ x ∈ s, x ∉ t) (sameGroups fs b) := by
  unfold sameGroups
  apply List.Pairwise.sublist (List.filter_sublist _)
  refine List.Pairwise.map _ ?_ (List.nodup_dedup _)
  intro d e hde x hx hx'
  have h1 := (List.mem_filter.mp hx).2
  have h2 := (List.mem_filter.mp hx').2
  rw [beq_iff_eq] at h1 h2
  exact hde (h1 ▸ h2)

theorem mem_bucketOf {fs : FS} {files : List FPath} {sz : Nat} {x : FPath} :
    x ∈ bucketOf fs files sz ↔ x ∈ files ∧ getsize fs x = sz := by
  unfold bucketOf
  rw [List.mem_filter, beq_iff_eq]

theorem multiBuckets_mem {fs : FS} {files : List FPath} {b : List FPath}
    (hb : b ∈ multiBuckets fs files) :
    (∃ sz, b = bucketOf fs files sz) ∧ 2 ≤ b.length := by
  unfold multiBuckets sizeBuckets at hb
  obtain ⟨hb1, hb2⟩ := List.mem_filter.mp hb
  obtain ⟨sz, _, hsz⟩ := List.mem_map.mp hb1
  exact ⟨⟨sz, hsz.symm⟩, of_decide_eq_true hb2⟩

theorem multiBuckets_nodup {fs : FS} {files : List FPath} {b : List FPath}
    (hf : files.Nodup) (hb : b ∈ multiBuckets fs files) : b.Nodup := by
  obtain ⟨⟨sz, hsz⟩, _⟩ := multiBuckets_mem hb
  rw [hsz]
  exact hf.filter _

theorem multiBuckets_pairwise (fs : FS) (files : List FPath) :
    List.Pairwise (fun s t => ∀ x ∈ s, x ∉ t) (multiBuckets fs files) := by
  unfold multiBuckets sizeBuckets
  apply List.Pairwise.sublist (List.filter_sublist _)
  refine List.Pairwise.map _ ?_ (List.nodup_dedup _)
  intro s1 s2 hss x hx hx'
  exact hss ((mem_bucketOf.mp hx).2.symm.trans (mem_bucketOf.mp hx').2)

theorem mem_scanFiles {fs : FS} {tree : List FPath}
    {pat : Option (String → Bool)} {x : FPath} :
    x ∈ scanFiles fs tree pat ↔ x ∈ tree ∧ isRegFile fs x = true ∧
      getsize fs x ≠ 0 ∧ patOk pat x = true := by
  unfold scanFiles scanOk
  rw [List.mem_filter]
  simp only [Bool.and_eq_true, decide_eq_true_eq]
  constructor
  · rintro ⟨h1, ⟨⟨h2, h3⟩, h4⟩⟩
    exact ⟨h1, h2, h3, h4⟩
  · rintro ⟨h1, h2, h3, h4⟩
    exact ⟨h1, ⟨⟨h2, h3⟩, h4⟩⟩

theorem two_le_length_of_mem_ne {α : Type} {l : List α} {a c : α}
    (ha : a ∈ l) (hc : c ∈ l) (h : a ≠ c) : 2 ≤ l.length := by
  cases l with
  | nil => exact absurd ha (List.not_mem_nil a)
  | cons x t =>
    cases t with
    | nil =>
      rw [List.mem_singleton] at ha hc
      exact absurd (ha.trans hc.symm) h
    | cons y t' => simp [Nat.succ_le_succ, Nat.le_add_left]

theorem pairwise_disjoint_unique {α : Type} {L : List (List α)}
    (hp : List.Pairwise (fun s t => ∀ x ∈ s, x ∉ t) L) {s t : List α}
    (hs : s ∈ L) (ht : t ∈ L) {x : α} (hxs : x ∈ s) (hxt : x ∈ t) :
    s = t := by
  induction L with
  | nil => exact absurd hs (List.not_mem_nil s)
  | cons u M ih =>
    obtain ⟨hu, hM⟩ := List.pairwise_cons.mp hp
    rcases List.mem_cons.mp hs with h1 | h1 <;>
      rcases List.mem_cons.mp ht with h2 | h2
    · rw [h1, h2]
    · exact absurd (hu t h2 x (h1 ▸ hxs)) (fun hn => hn hxt)
    · exact absurd (hu s h1 x (h2 ▸ hxt)) (fun hn => hn hxs)
    · exact ih hM h1 h2

theorem mem_of_split {s : List FPath} {sv : FPath} {r : List FPath}
    (h : splitSurvivor s = some (sv, r)) {x : FPath} (hx : x ∈ s) :
    x = sv ∨ x ∈ r := by
  have happ := splitSurvivor_append s sv r h
  have hx' : x ∈ sortFiles s := (sortFiles_perm s).mem_iff.mpr hx
  rw [happ] at hx'
  rcases List.mem_append.mp hx' with h1 | h1
  · exact Or.inr h1
  · exact Or.inl (List.mem_singleton.mp h1)
theorem setLinks_eq {fs0 : FS} {s : List FPath} {sv : FPath}
    {r : List FPath} (h : splitSurvivor s = some (sv, r)) :
    setLinks fs0 s = (r.filter fun f => !samefile fs0 sv f).length := by
  unfold setLinks
  rw [h]

theorem setSaved_eq {fs0 : FS} {s : List FPath} {sv : FPath}
    {r : List FPath} (h : splitSurvivor s = some (sv, r)) :
    setSaved fs0 s
      = (r.filter fun f => !samefile fs0 sv f).length * getsize fs0 sv := by
  unfold setSaved
  rw [h]

theorem runSet_nofail (symlink absolute : Bool) (orc : Oracle) (fs0 : FS)
    (hnf : noFailures orc) (st : RunSt) (s : List FPath) (sv : FPath)
    (r : List FPath) (hsplit : splitSurvivor s = some (sv, r))
    (hnd : s.Nodup)
    (hag : ∀ x ∈ s, st.fs.entries x = fs0.entries x)
    (hcont : st.fs.contents = fs0.contents)
    (hsv : (inoOf fs0 sv).isSome = true) :
    (runSet true symlink absolute orc st s).links
        = st.links + setLinks fs0 s ∧
    (runSet true symlink absolute orc st s).saved
        = st.saved + setSaved fs0 s ∧
    ((runSet true symlink absolute orc st s).fs).contents
        = st.fs.contents ∧
    ((runSet true symlink absolute orc st s).fs).nextIno = st.fs.nextIno ∧
    (∀ q, q ∉ r →
      ((runSet true symlink absolute orc st s).fs).entries q
        = st.fs.entries q) ∧
    (∀ f ∈ r,
      ((runSet true symlink absolute orc st s).fs).entries f
        = (if samefile fs0 sv f then fs0.entries f
           else if symlink then
             some (Entry.symlink (symlinkSource absolute sv f))
           else (inoOf fs0 sv).map Entry.regular)) ∧
    (runSet true symlink absolute orc st s).plans = (sv, r) :: st.plans ∧
    (runSet true symlink absolute orc st s).hung = st.hung := by
  rcases hib : inoOf fs0 sv with _ | ib
  · rw [hib] at hsv
    exact absurd hsv (by simp)
  have hsvmem : sv ∈ s := splitSurvivor_mem s sv r hsplit
  obtain ⟨hndr, hsvr⟩ := splitSurvivor_nodup s sv r hnd hsplit
  have hrs : ∀ x ∈ r, x ∈ s := splitSurvivor_rest_mem s sv r hsplit
  obtain ⟨L1, L2, L3, L4, L5, L6⟩ := loop_real_nofail symlink absolute orc
    sv (getsize st.fs sv) fs0 ib hnf hib r 0 0 st.fs hndr hsvr
    (hag sv hsvmem) (fun x hx => hag x (hrs x hx))
  have hbsz : getsize st.fs sv = getsize fs0 sv :=
    getsize_congr (hag sv hsvmem) hcont
  have hrs0 : runSet true symlink absolute orc st s
      = RunSt.mk
        (st.links + (linkFilesLoop true symlink absolute orc sv
          (getsize st.fs sv) (0, 0, st.fs) r).1)
        (st.saved + (linkFilesLoop true symlink absolute orc sv
          (getsize st.fs sv) (0, 0, st.fs) r).2.1)
        ((linkFilesLoop true symlink absolute orc sv
          (getsize st.fs sv) (0, 0, st.fs) r).2.2)
        ((sv, r) :: st.plans) st.hung := by
    unfold runSet
    rw [hsplit]
  rw [hrs0]
  refine ⟨?_, ?_, L3, L4, L5, ?_, rfl, rfl⟩
  · simp only [L1, setLinks_eq hsplit]
    omega
  · simp only [L2]
    rw [hbsz, setSaved_eq hsplit]
    omega
  · intro f hf
    rw [L6 f hf]
    cases hsf : samefile fs0 sv f with
    | true =>
      simp only [if_pos rfl]
      exact hag f (hrs f hf)
    | false => simp
theorem runSets_nofail (symlink absolute : Bool) (orc : Oracle) (fs0 : FS)
    (hnf : noFailures orc) :
    ∀ (sets : List (List FPath)) (st : RunSt),
      List.Pairwise (fun s t => ∀ x ∈ s, x ∉ t) sets →
      (∀ s ∈ sets, s.Nodup) →
      (∀ s ∈ sets, ∀ x ∈ s, (inoOf fs0 x).isSome = true) →
      (∀ s ∈ sets, ∀ x ∈ s, st.fs.entries x = fs0.entries x) →
      st.fs.contents = fs0.contents →
      (sets.foldl (runSet true symlink absolute orc) st).links
          = st.links + (sets.map (setLinks fs0)).sum ∧
      (sets.foldl (runSet true symlink absolute orc) st).saved
          = st.saved + (sets.map (setSaved fs0)).sum ∧
      ((sets.foldl (runSet true symlink absolute orc) st).fs).contents
          = st.fs.contents ∧
      ((sets.foldl (runSet true symlink absolute orc) st).fs).nextIno
          = st.fs.nextIno ∧
      (∀ q, (∀ s ∈ sets, ∀ sv r, splitSurvivor s = some (sv, r) → q ∉ r) →
        ((sets.foldl (runSet true symlink absolute orc) st).fs).entries q
          = st.fs.entries q) ∧
      (∀ s ∈ sets, ∀ sv r, splitSurvivor s = some (sv, r) → ∀ f ∈ r,
        ((sets.foldl (runSet true symlink absolute orc) st).fs).entries f
          = (if samefile fs0 sv f then fs0.entries f
             else if symlink then
               some (Entry.symlink (symlinkSource absolute sv f))
             else (inoOf fs0 sv).map Entry.regular)) := by
  intro sets
  induction sets with
  | nil =>
    intro st _ _ _ _ _
    exact ⟨by simp, by simp, rfl, rfl, fun q _ => rfl,
      fun s hs => absurd hs (List.not_mem_nil s)⟩
  | cons s1 t ih =>
    intro st hpw hnd hreg hag hcont
    obtain ⟨hpw1, hpwt⟩ := List.pairwise_cons.mp hpw
    have hs1m : s1 ∈ s1 :: t := List.mem_cons_self s1 t
    rw [List.foldl_cons]
    cases hsp : splitSurvivor s1 with
    | none =>
      have hrs : runSet true symlink absolute orc st s1 = st := by
        unfold runSet
        rw [hsp]
      rw [hrs]
      obtain ⟨i1, i2, i3, i4, i5, i6⟩ := ih st hpwt
        (fun s hs => hnd s (List.mem_cons_of_mem s1 hs))
        (fun s hs => hreg s (List.mem_cons_of_mem s1 hs))
        (fun s hs => hag s (List.mem_cons_of_mem s1 hs)) hcont
      have hz : setLinks fs0 s1 = 0 := by
        unfold setLinks
        rw [hsp]
      have hz2 : setSaved fs0 s1 = 0 := by
        unfold setSaved
        rw [hsp]
      refine ⟨by rw [i1]; simp [hz], by rw [i2]; simp [hz2], i3, i4, ?_, ?_⟩
      · intro q hq
        exact i5 q (fun s hs => hq s (List.mem_cons_of_mem s1 hs))
      · intro s hs sv r hsr
        rcases List.mem_cons.mp hs with h | h
        · rw [h, hsp] at hsr
          exact absurd hsr (by simp)
        · exact i6 s h sv r hsr
    | some pr =>
      rcases pr with ⟨sv, r⟩
      have hrsub : ∀ x ∈ r, x ∈ s1 := splitSurvivor_rest_mem s1 sv r hsp
      have hsvs : sv ∈ s1 := splitSurvivor_mem s1 sv r hsp
      obtain ⟨R1, R2, R3, R4, R5, R6, R7, R8⟩ := runSet_nofail symlink
        absolute orc fs0 hnf st s1 sv r hsp (hnd s1 hs1m) (hag s1 hs1m)
        hcont (hreg s1 hs1m sv hsvs)
      obtain ⟨i1, i2, i3, i4, i5, i6⟩ := ih
        (runSet true symlink absolute orc st s1) hpwt
        (fun s hs => hnd s (List.mem_cons_of_mem s1 hs))
        (fun s hs => hreg s (List.mem_cons_of_mem s1 hs))
        (fun s hs x hx => by
          rw [R5 x (fun hxr => hpw1 s hs x (hrsub x hxr) hx)]
          exact hag s (List.mem_cons_of_mem s1 hs) x hx)
        (R3.trans hcont)
      refine ⟨?_, ?_, i3.trans R3, i4.trans R4, ?_, ?_⟩
      · rw [i1, R1, List.map_cons, List.sum_cons]
        omega
      · rw [i2, R2, List.map_cons, List.sum_cons]
        omega
      · intro q hq
        have hq1 : q ∉ r := hq s1 hs1m sv r hsp
        rw [i5 q (fun s hs => hq s (List.mem_cons_of_mem s1 hs)), R5 q hq1]
      · intro s hs sv' r' hsr f hf
        rcases List.mem_cons.mp hs with h | h
        · subst h
          rw [hsp] at hsr
          simp only [Option.some.injEq, Prod.mk.injEq] at hsr
          obtain ⟨he1, he2⟩ := hsr
          subst he1
          subst he2
          have hfr : ∀ s' ∈ t, ∀ sv2 r2,
              splitSurvivor s' = some (sv2, r2) → f ∉ r2 := by
            intro s' hs' sv2 r2 hsr2 hfr2
            exact hpw1 s' hs' f (hrsub f hf)
              (splitSurvivor_rest_mem s' sv2 r2 hsr2 f hfr2)
          rw [i5 f hfr, R6 f hf]
        · exact i6 s h sv' r' hsr f hf
theorem runBucket_nofail (symlink absolute : Bool) (orc : Oracle)
    (how : FPath → Bool) (fs0 : FS) (hnf : noFailures orc)
    (hhash : ∀ p, how p = false) (st : RunSt) (b : List FPath)
    (hbnd : b.Nodup)
    (hreg : ∀ x ∈ b, (inoOf fs0 x).isSome = true)
    (hag : ∀ x ∈ b, st.fs.entries x = fs0.entries x)
    (hcont : st.fs.contents = fs0.contents) :
    (runBucket true symlink absolute orc how st b).links
        = st.links + bucketLinks fs0 b ∧
    (runBucket true symlink absolute orc how st b).saved
        = st.saved + bucketSaved fs0 b ∧
    ((runBucket true symlink absolute orc how st b).fs).contents
        = st.fs.contents ∧
    ((runBucket true symlink absolute orc how st b).fs).nextIno
        = st.fs.nextIno ∧
    (∀ q, (∀ s ∈ sameGroups fs0 b, ∀ sv r,
        splitSurvivor s = some (sv, r) → q ∉ r) →
      ((runBucket true symlink absolute orc how st b).fs).entries q
        = st.fs.entries q) ∧
    (∀ s ∈ sameGroups fs0 b, ∀ sv r, splitSurvivor s = some (sv, r) →
      ∀ f ∈ r,
      ((runBucket true symlink absolute orc how st b).fs).entries f
        = (if samefile fs0 sv f then fs0.entries f
           else if symlink then
             some (Entry.symlink (symlinkSource absolute sv f))
           else (inoOf fs0 sv).map Entry.regular)) := by
  have hgc : sameGroups st.fs b = sameGroups fs0 b :=
    sameGroups_congr (fun x hx => fileContent_congr (hag x hx) hcont)
  have hrb : runBucket true symlink absolute orc how st b
      = (sameGroups fs0 b).foldl (runSet true symlink absolute orc) st := by
    unfold runBucket
    rw [checkSame_ok st.fs b hhash, hgc]
  rw [hrb]
  exact runSets_nofail symlink absolute orc fs0 hnf (sameGroups fs0 b) st
    (sameGroups_pairwise fs0 b)
    (fun s hs => sameGroups_nodup hbnd hs)
    (fun s hs x hx => hreg x (sameGroups_sub hs x hx))
    (fun s hs x hx => hag x (sameGroups_sub hs x hx))
    hcont

theorem runBuckets_nofail (symlink absolute : Bool) (orc : Oracle)
    (how : FPath → Bool) (fs0 : FS) (hnf : noFailures orc)
    (hhash : ∀ p, how p = false) :
    ∀ (bs : List (List FPath)) (st : RunSt),
      List.Pairwise (fun s t => ∀ x ∈ s, x ∉ t) bs →
      (∀ b ∈ bs, b.Nodup) →
      (∀ b ∈ bs, ∀ x ∈ b, (inoOf fs0 x).isSome = true) →
      (∀ b ∈ bs, ∀ x ∈ b, st.fs.entries x = fs0.entries x) →
      st.fs.contents = fs0.contents →
      (bs.foldl (runBucket true symlink absolute orc how) st).links
          = st.links + (bs.map (bucketLinks fs0)).sum ∧
      (bs.foldl (runBucket true symlink absolute orc how) st).saved
          = st.saved + (bs.map (bucketSaved fs0)).sum ∧
      ((bs.foldl (runBucket true symlink absolute orc how) st).fs).contents
          = st.fs.contents ∧
      ((bs.foldl (runBucket true symlink absolute orc how) st).fs).nextIno
          = st.fs.nextIno ∧
      (∀ q, (∀ b ∈ bs, ∀ s ∈ sameGroups fs0 b, ∀ sv r,
          splitSurvivor s = some (sv, r) → q ∉ r) →
        ((bs.foldl (runBucket true symlink absolute orc how) st).fs).entries q
          = st.fs.entries q) ∧
      (∀ b ∈ bs, ∀ s ∈ sameGroups fs0 b, ∀ sv r,
        splitSurvivor s = some (sv, r) → ∀ f ∈ r,
        ((bs.foldl (runBucket true symlink absolute orc how) st).fs).entries f
          = (if samefile fs0 sv f then fs0.entries f
             else if symlink then
               some (Entry.symlink (symlinkSource absolute sv f))
             else (inoOf fs0 sv).map Entry.regular)) := by
  intro bs
  induction bs with
  | nil =>
    intro st _ _ _ _ _
    exact ⟨by simp, by simp, rfl, rfl, fun q _ => rfl,
      fun b hb => absurd hb (List.not_mem_nil b)⟩
  | cons b1 t ih =>
    intro st hpw hnd hreg hag hcont
    obtain ⟨hpw1, hpwt⟩ := List.pairwise_cons.mp hpw
    have hb1m : b1 ∈ b1 :: t := List.mem_cons_self b1 t
    have hsub1 : ∀ s ∈ sameGroups fs0 b1, ∀ x ∈ s, x ∈ b1 :=
      fun s hs x hx => sameGroups_sub hs x hx
    rw [List.foldl_cons]
    obtain ⟨R1, R2, R3, R4, R5, R6⟩ := runBucket_nofail symlink absolute orc
      how fs0 hnf hhash st b1 (hnd b1 hb1m) (hreg b1 hb1m) (hag b1 hb1m)
      hcont
    obtain ⟨i1, i2, i3, i4, i5, i6⟩ := ih
      (runBucket true symlink absolute orc how st b1) hpwt
      (fun b hb => hnd b (List.mem_cons_of_mem b1 hb))
      (fun b hb => hreg b (List.mem_cons_of_mem b1 hb))
      (fun b hb x hx => by
        rw [R5 x (fun s hs sv r hsr hxr => hpw1 b hb x
          (hsub1 s hs x (splitSurvivor_rest_mem s sv r hsr x hxr)) hx)]
        exact hag b (List.mem_cons_of_mem b1 hb) x hx)
      (R3.trans hcont)
    refine ⟨?_, ?_, i3.trans R3, i4.trans R4, ?_, ?_⟩
    · rw [i1, R1, List.map_cons, List.sum_cons]
      omega
    · rw [i2, R2, List.map_cons, List.sum_cons]
      omega
    · intro q hq
      rw [i5 q (fun b hb => hq b (List.mem_cons_of_mem b1 hb)),
        R5 q (hq b1 hb1m)]
    · intro b hb s hs sv r hsr f hf
      rcases List.mem_cons.mp hb with h | h
      · subst h
        have hfb : f ∈ b :=
          hsub1 s hs f (splitSurvivor_rest_mem s sv r hsr f hf)
        have hfr : ∀ b' ∈ t, ∀ s' ∈ sameGroups fs0 b', ∀ sv2 r2,
            splitSurvivor s' = some (sv2, r2) → f ∉ r2 := by
          intro b' hb' s' hs' sv2 r2 hsr2 hfr2
          exact hpw1 b' hb' f hfb
            (sameGroups_sub hs' f
              (splitSurvivor_rest_mem s' sv2 r2 hsr2 f hfr2))
        rw [i5 f hfr]
        exact R6 s hs sv r hsr f hf
      · exact i6 b h s hs sv r hsr f hf
theorem mem_multiBuckets_scan {fs : FS} {tree : List FPath}
    {pat : Option (String → Bool)} {b : List FPath} {x : FPath}
    (hb : b ∈ multiBuckets fs (scanFiles fs tree pat)) (hx : x ∈ b) :
    x ∈ scanFiles fs tree pat := by
  obtain ⟨⟨sz, hsz⟩, _⟩ := multiBuckets_mem hb
  rw [hsz] at hx
  exact (mem_bucketOf.mp hx).1

theorem linkSameFiles_nofail (tree : List FPath) (fs0 : FS)
    (pat : Option (String → Bool)) (symlink absolute : Bool) (orc : Oracle)
    (how : FPath → Bool) (hnodup : tree.Nodup) (hnf : noFailures orc)
    (hhash : ∀ p, how p = false) :
    (linkSameFiles tree fs0 pat true symlink absolute orc how).links
        = ((multiBuckets fs0 (scanFiles fs0 tree pat)).map
            (bucketLinks fs0)).sum ∧
    (linkSameFiles tree fs0 pat true symlink absolute orc how).saved
        = ((multiBuckets fs0 (scanFiles fs0 tree pat)).map
            (bucketSaved fs0)).sum ∧
    ((linkSameFiles tree fs0 pat true symlink absolute orc how).fs).contents
        = fs0.contents ∧
    ((linkSameFiles tree fs0 pat true symlink absolute orc how).fs).nextIno
        = fs0.nextIno ∧
    (∀ q, (∀ b ∈ multiBuckets fs0 (scanFiles fs0 tree pat),
        ∀ s ∈ sameGroups fs0 b, ∀ sv r,
        splitSurvivor s = some (sv, r) → q ∉ r) →
      ((linkSameFiles tree fs0 pat true symlink absolute orc how).fs).entries q
        = fs0.entries q) ∧
    (∀ b ∈ multiBuckets fs0 (scanFiles fs0 tree pat),
      ∀ s ∈ sameGroups fs0 b, ∀ sv r, splitSurvivor s = some (sv, r) →
      ∀ f ∈ r,
      ((linkSameFiles tree fs0 pat true symlink absolute orc how).fs).entries f
        = (if samefile fs0 sv f then fs0.entries f
           else if symlink then
             some (Entry.symlink (symlinkSource absolute sv f))
           else (inoOf fs0 sv).map Entry.regular)) := by
  have hfs : (scanFiles fs0 tree pat).Nodup := hnodup.filter _
  obtain ⟨r1, r2, r3, r4, r5, r6⟩ := runBuckets_nofail symlink absolute orc
    how fs0 hnf hhash
    (multiBuckets fs0 (scanFiles fs0 tree pat))
    (RunSt.mk 0 0 fs0 [] false)
    (multiBuckets_pairwise fs0 (scanFiles fs0 tree pat))
    (fun b hb => multiBuckets_nodup hfs hb)
    (fun b hb x hx =>
      (mem_scanFiles.mp (mem_multiBuckets_scan hb hx)).2.1)
    (fun b hb x hx => rfl)
    rfl
  have hdef : linkSameFiles tree fs0 pat true symlink absolute orc how
      = (multiBuckets fs0 (scanFiles fs0 tree pat)).foldl
          (runBucket true symlink absolute orc how)
          (RunSt.mk 0 0 fs0 [] false) := rfl
  refine ⟨?_, ?_, ?_, ?_, ?_, ?_⟩
  · rw [hdef, r1]
    simp
  · rw [hdef, r2]
    simp
  · rw [hdef]
    exact r3
  · rw [hdef]
    exact r4
  · intro q hq
    rw [hdef]
    exact r5 q hq
  · intro b hb s hs sv r hsr f hf
    rw [hdef]
    exact r6 b hb s hs sv r hsr f hf

theorem runSet_dry (symlink absolute : Bool) (orc : Oracle) (st : RunSt)
    (s : List FPath) :
    (runSet false symlink absolute orc st s).links
        = st.links + setLinks st.fs s ∧
    (runSet false symlink absolute orc st s).saved
        = st.saved + setSaved st.fs s ∧
    (runSet false symlink absolute orc st s).fs = st.fs := by
  cases hsp : splitSurvivor s with
  | none =>
    have hrs : runSet false symlink absolute orc st s = st := by
      unfold runSet
      rw [hsp]
    have hz : setLinks st.fs s = 0 := by
      unfold setLinks
      rw [hsp]
    have hz2 : setSaved st.fs s = 0 := by
      unfold setSaved
      rw [hsp]
    rw [hrs, hz, hz2]
    exact ⟨rfl, rfl, rfl⟩
  | some pr =>
    rcases pr with ⟨sv, r⟩
    have hrs : runSet false symlink absolute orc st s
        = RunSt.mk
          (st.links + (linkFilesLoop false symlink absolute orc sv
            (getsize st.fs sv) (0, 0, st.fs) r).1)
          (st.saved + (linkFilesLoop false symlink absolute orc sv
            (getsize st.fs sv) (0, 0, st.fs) r).2.1)
          ((linkFilesLoop false symlink absolute orc sv
            (getsize st.fs sv) (0, 0, st.fs) r).2.2)
          ((sv, r) :: st.plans) st.hung := by
      unfold runSet
      rw [hsp]
    rw [hrs, loop_dry symlink absolute orc sv (getsize st.fs sv) r 0 0 st.fs,
      setLinks_eq hsp, setSaved_eq hsp]
    exact ⟨by simp, by simp, rfl⟩

theorem runSets_dry (symlink absolute : Bool) (orc : Oracle) :
    ∀ (sets : List (List FPath)) (st : RunSt),
      (sets.foldl (runSet false symlink absolute orc) st).links
          = st.links + (sets.map (setLinks st.fs)).sum ∧
      (sets.foldl (runSet false symlink absolute orc) st).saved
          = st.saved + (sets.map (setSaved st.fs)).sum ∧
      (sets.foldl (runSet false symlink absolute orc) st).fs = st.fs := by
  intro sets
  induction sets with
  | nil => intro st; exact ⟨by simp, by simp, rfl⟩
  | cons s1 t ih =>
    intro st
    rw [List.foldl_cons]
    obtain ⟨R1, R2, R3⟩ := runSet_dry symlink absolute orc st s1
    obtain ⟨i1, i2, i3⟩ := ih (runSet false symlink absolute orc st s1)
    rw [R3] at i1 i2
    refine ⟨?_, ?_, i3.trans R3⟩
    · rw [i1, R1, List.map_cons, List.sum_cons]
      omega
    · rw [i2, R2, List.map_cons, List.sum_cons]
      omega

theorem runBucket_dry (symlink absolute : Bool) (orc : Oracle)
    (how : FPath → Bool) (hhash : ∀ p, how p = false) (st : RunSt)
    (b : List FPath) :
    (runBucket false symlink absolute orc how st b).links
        = st.links + bucketLinks st.fs b ∧
    (runBucket false symlink absolute orc how st b).saved
        = st.saved + bucketSaved st.fs b ∧
    (runBucket false symlink absolute orc how st b).fs = st.fs := by
  have hrb : runBucket false symlink absolute orc how st b
      = (sameGroups st.fs b).foldl (runSet false symlink absolute orc) st := by
    unfold runBucket
    rw [checkSame_ok st.fs b hhash]
  rw [hrb]
  exact runSets_dry symlink absolute orc (sameGroups st.fs b) st

theorem runBuckets_dry (symlink absolute : Bool) (orc : Oracle)
    (how : FPath → Bool) (hhash : ∀ p, how p = false) :
    ∀ (bs : List (List FPath)) (st : RunSt),
      (bs.foldl (runBucket false symlink absolute orc how) st).links
          = st.links + (bs.map (bucketLinks st.fs)).sum ∧
      (bs.foldl (runBucket false symlink absolute orc how) st).saved
          = st.saved + (bs.map (bucketSaved st.fs)).sum ∧
      (bs.foldl (runBucket false symlink absolute orc how) st).fs = st.fs := by
  intro bs
  induction bs with
  | nil => intro st; exact ⟨by simp, by simp, rfl⟩
  | cons b1 t ih =>
    intro st
    rw [List.foldl_cons]
    obtain ⟨R1, R2, R3⟩ := runBucket_dry symlink absolute orc how hhash st b1
    obtain ⟨i1, i2, i3⟩ := ih (runBucket false symlink absolute orc how st b1)
    rw [R3] at i1 i2
    refine ⟨?_, ?_, i3.trans R3⟩
    · rw [i1, R1, List.map_cons, List.sum_cons]
      omega
    · rw [i2, R2, List.map_cons, List.sum_cons]
      omega

/-- C2: with the same tree, options, and a failure-free environment, a
dry run (write mode off) reports exactly the statistics of the real run
(link count and bytes saved), and the dry run leaves the filesystem
exactly as it was. -/
theorem c2_dryrun_matches_real (tree : List FPath) (fs0 : FS)
    (pat : Option (String → Bool)) (symlink absolute : Bool) (orc : Oracle)
    (how : FPath → Bool) (hnodup : tree.Nodup) (hnf : noFailures orc)
    (hhash : ∀ p, how p = false) :
    (linkSameFiles tree fs0 pat false symlink absolute orc how).links
        = (linkSameFiles tree fs0 pat true symlink absolute orc how).links ∧
    (linkSameFiles tree fs0 pat false symlink absolute orc how).saved
        = (linkSameFiles tree fs0 pat true symlink absolute orc how).saved ∧
    (linkSameFiles tree fs0 pat false symlink absolute orc how).fs = fs0 := by
  obtain ⟨r1, r2, _, _, _, _⟩ := linkSameFiles_nofail tree fs0 pat symlink
    absolute orc how hnodup hnf hhash
  obtain ⟨d1, d2, d3⟩ := runBuckets_dry symlink absolute orc how hhash
    (multiBuckets fs0 (scanFiles fs0 tree pat)) (RunSt.mk 0 0 fs0 [] false)
  refine ⟨?_, ?_, d3⟩
  · rw [r1]
    unfold linkSameFiles
    rw [d1]
    simp
  · rw [r2]
    unfold linkSameFiles
    rw [d2]
    simp

/-- Witness for C2 on the sample tree: the dry run and the real run agree. -/
theorem c2_dryrun_matches_real_witness :
    (linkSameFiles [pa, pb, pc] fsDemo none false false false orcOk
      howOk).links
      = (linkSameFiles [pa, pb, pc] fsDemo none true false false orcOk
        howOk).links ∧
    (linkSameFiles [pa, pb, pc] fsDemo none false false false orcOk
      howOk).fs = fsDemo :=
  ⟨(c2_dryrun_matches_real [pa, pb, pc] fsDemo none false false orcOk howOk
      (by decide) (fun p => ⟨rfl, rfl, rfl⟩) (fun p => rfl)).1,
    (c2_dryrun_matches_real [pa, pb, pc] fsDemo none false false orcOk howOk
      (by decide) (fun p => ⟨rfl, rfl, rfl⟩) (fun p => rfl)).2.2⟩
theorem samefile_true_ino {fs : FS} {a b : FPath}
    (h : samefile fs a b = true) :
    ∃ i, inoOf fs a = some i ∧ inoOf fs b = some i := by
  unfold samefile at h
  rcases ha : inoOf fs a with _ | i <;> rcases hb : inoOf fs b with _ | j <;>
    rw [ha, hb] at h <;> simp at h
  exact ⟨i, rfl, by rw [h]⟩

theorem loop_all_same (link symlink absolute : Bool) (orc : Oracle)
    (base : FPath) (bsz : Nat) :
    ∀ (rest : List FPath) (l0 s0 : Nat) (fs : FS),
      (∀ f ∈ rest, samefile fs base f = true) →
      linkFilesLoop link symlink absolute orc base bsz (l0, s0, fs) rest
        = (l0, s0, fs) := by
  intro rest
  induction rest with
  | nil => intro l0 s0 fs _; rfl
  | cons f t ih =>
    intro l0 s0 fs hall
    rw [linkFilesLoop_cons,
      pm_same link symlink absolute orc base bsz l0 s0 fs f
        (hall f (List.mem_cons_self f t))]
    exact ih l0 s0 fs (fun g hg => hall g (List.mem_cons_of_mem f hg))

theorem runSet_all_same (symlink absolute : Bool) (orc : Oracle)
    (fsX : FS) (st : RunSt) (s : List FPath) (hfs : st.fs = fsX)
    (hall : ∀ sv r, splitSurvivor s = some (sv, r) →
      ∀ f ∈ r, samefile fsX sv f = true) :
    (runSet true symlink absolute orc st s).links = st.links ∧
    (runSet true symlink absolute orc st s).saved = st.saved ∧
    (runSet true symlink absolute orc st s).fs = fsX := by
  cases hsp : splitSurvivor s with
  | none =>
    have hrs : runSet true symlink absolute orc st s = st := by
      unfold runSet
      rw [hsp]
    rw [hrs]
    exact ⟨rfl, rfl, hfs⟩
  | some pr =>
    rcases pr with ⟨sv, r⟩
    have hrs : runSet true symlink absolute orc st s
        = RunSt.mk
          (st.links + (linkFilesLoop true symlink absolute orc sv
            (getsize st.fs sv) (0, 0, st.fs) r).1)
          (st.saved + (linkFilesLoop true symlink absolute orc sv
            (getsize st.fs sv) (0, 0, st.fs) r).2.1)
          ((linkFilesLoop true symlink absolute orc sv
            (getsize st.fs sv) (0, 0, st.fs) r).2.2)
          ((sv, r) :: st.plans) st.hung := by
      unfold runSet
      rw [hsp]
    rw [hrs, hfs,
      loop_all_same true symlink absolute orc sv (getsize fsX sv) r 0 0 fsX
        (hall sv r hsp)]
    exact ⟨rfl, rfl, rfl⟩

theorem runSets_all_same (symlink absolute : Bool) (orc : Oracle)
    (fsX : FS) :
    ∀ (sets : List (List FPath)) (st : RunSt), st.fs = fsX →
      (∀ s ∈ sets, ∀ sv r, splitSurvivor s = some (sv, r) →
        ∀ f ∈ r, samefile fsX sv f = true) →
      (sets.foldl (runSet true symlink absolute orc) st).links = st.links ∧
      (sets.foldl (runSet true symlink absolute orc) st).saved = st.saved ∧
      (sets.foldl (runSet true symlink absolute orc) st).fs = fsX := by
  intro sets
  induction sets with
  | nil => intro st hfs _; exact ⟨rfl, rfl, hfs⟩
  | cons s1 t ih =>
    intro st hfs hall
    rw [List.foldl_cons]
    obtain ⟨R1, R2, R3⟩ := runSet_all_same symlink absolute orc fsX st s1
      hfs (hall s1 (List.mem_cons_self s1 t))
    obtain ⟨i1, i2, i3⟩ := ih (runSet true symlink absolute orc st s1) R3
      (fun s hs => hall s (List.mem_cons_of_mem s1 hs))
    exact ⟨i1.trans R1, i2.trans R2, i3⟩

theorem runBuckets_all_same (symlink absolute : Bool) (orc : Oracle)
    (how : FPath → Bool) (fsX : FS) (hhash : ∀ p, how p = false) :
    ∀ (bs : List (List FPath)) (st : RunSt), st.fs = fsX →
      (∀ b ∈ bs, ∀ s ∈ sameGroups fsX b, ∀ sv r,
        splitSurvivor s = some (sv, r) →
        ∀ f ∈ r, samefile fsX sv f = true) →
      (bs.foldl (runBucket true symlink absolute orc how) st).links
          = st.links ∧
      (bs.foldl (runBucket true symlink absolute orc how) st).saved
          = st.saved ∧
      (bs.foldl (runBucket true symlink absolute orc how) st).fs = fsX := by
  intro bs
  induction bs with
  | nil => intro st hfs _; exact ⟨rfl, rfl, hfs⟩
  | cons b1 t ih =>
    intro st hfs hall
    rw [List.foldl_cons]
    have hrb : runBucket true symlink absolute orc how st b1
        = (sameGroups fsX b1).foldl (runSet true symlink absolute orc) st := by
      unfold runBucket
      rw [checkSame_ok st.fs b1 hhash, hfs]
    obtain ⟨R1, R2, R3⟩ := runSets_all_same symlink absolute orc fsX
      (sameGroups fsX b1) st hfs (hall b1 (List.mem_cons_self b1 t))
    rw [← hrb] at R1 R2 R3
    obtain ⟨i1, i2, i3⟩ := ih (runBucket true symlink absolute orc how st b1)
      R3 (fun b hb => hall b (List.mem_cons_of_mem b1 hb))
    exact ⟨i1.trans R1, i2.trans R2, i3⟩

theorem mem_multiBuckets_of {fs : FS} {files : List FPath} {a c : FPath}
    (ha : a ∈ files) (hc : c ∈ files) (hne : a ≠ c)
    (hsz : getsize fs a = getsize fs c) :
    ∃ b ∈ multiBuckets fs files, a ∈ b ∧ c ∈ b := by
  refine ⟨bucketOf fs files (getsize fs a), ?_, ?_, ?_⟩
  · unfold multiBuckets sizeBuckets
    rw [List.mem_filter]
    constructor
    · apply List.mem_map_of_mem
      unfold sizesOf
      rw [List.mem_dedup]
      exact List.mem_map_of_mem (getsize fs) ha
    · have h1 : a ∈ bucketOf fs files (getsize fs a) :=
        mem_bucketOf.mpr ⟨ha, rfl⟩
      have h2 : c ∈ bucketOf fs files (getsize fs a) :=
        mem_bucketOf.mpr ⟨hc, hsz.symm⟩
      exact decide_eq_true (two_le_length_of_mem_ne h1 h2 hne)
  · exact mem_bucketOf.mpr ⟨ha, rfl⟩
  · exact mem_bucketOf.mpr ⟨hc, hsz.symm⟩

theorem mem_sameGroups_of {fs : FS} {b : List FPath} {a c : FPath}
    (ha : a ∈ b) (hc : c ∈ b) (hne : a ≠ c)
    (hct : fileContent fs a = fileContent fs c) :
    ∃ s ∈ sameGroups fs b, a ∈ s ∧ c ∈ s := by
  refine ⟨b.filter fun p => fileContent fs p == fileContent fs a, ?_, ?_, ?_⟩
  · unfold sameGroups
    rw [List.mem_filter]
    constructor
    · apply List.mem_map_of_mem
      rw [List.mem_dedup]
      exact List.mem_map_of_mem _ ha
    · have h1 : a ∈ b.filter fun p => fileContent fs p == fileContent fs a :=
        List.mem_filter.mpr ⟨ha, by simp⟩
      have h2 : c ∈ b.filter fun p => fileContent fs p == fileContent fs a :=
        List.mem_filter.mpr ⟨hc, by simp [hct]⟩
      have := two_le_length_of_mem_ne h1 h2 hne
      exact decide_eq_true (by omega)
  · exact List.mem_filter.mpr ⟨ha, by simp⟩
  · exact List.mem_filter.mpr ⟨hc, by simp [hct]⟩
theorem isRegFile_eq (fs : FS) (p : FPath) :
    isRegFile fs p = (inoOf fs p).isSome := rfl

theorem sets_unique {fs0 : FS} {files : List FPath} {b b' : List FPath}
    {s s' : List FPath} (hb : b ∈ multiBuckets fs0 files)
    (hb' : b' ∈ multiBuckets fs0 files) (hs : s ∈ sameGroups fs0 b)
    (hs' : s' ∈ sameGroups fs0 b') {x : FPath} (hx : x ∈ s)
    (hx' : x ∈ s') : s = s' := by
  have hxb : x ∈ b := sameGroups_sub hs x hx
  have hxb' : x ∈ b' := sameGroups_sub hs' x hx'
  have hbb : b = b' :=
    pairwise_disjoint_unique (multiBuckets_pairwise fs0 files) hb hb' hxb
      hxb'
  subst hbb
  exact pairwise_disjoint_unique (sameGroups_pairwise fs0 b) hs hs' hx hx'

theorem second_scan_state (tree : List FPath) (fs0 : FS)
    (pat : Option (String → Bool)) (symlink absolute : Bool) (orc : Oracle)
    (how : FPath → Bool) (hnodup : tree.Nodup) (hnf : noFailures orc)
    (hhash : ∀ p, how p = false) :
    ∀ a ∈ scanFiles
        ((linkSameFiles tree fs0 pat true symlink absolute orc how).fs)
        tree pat,
      a ∈ scanFiles fs0 tree pat ∧
      fileContent
          ((linkSameFiles tree fs0 pat true symlink absolute orc how).fs) a
        = fileContent fs0 a ∧
      (∀ b ∈ multiBuckets fs0 (scanFiles fs0 tree pat),
        ∀ s ∈ sameGroups fs0 b, a ∈ s → ∀ sv r,
        splitSurvivor s = some (sv, r) →
        inoOf ((linkSameFiles tree fs0 pat true symlink absolute orc
          how).fs) a = inoOf fs0 sv) := by
  obtain ⟨_, _, r3, r4, r5, r6⟩ := linkSameFiles_nofail tree fs0 pat symlink
    absolute orc how hnodup hnf hhash
  intro a ha
  obtain ⟨hat, hreg1, hsz1, hpat1⟩ := mem_scanFiles.mp ha
  by_cases hP : ∃ b ∈ multiBuckets fs0 (scanFiles fs0 tree pat),
      ∃ s ∈ sameGroups fs0 b, ∃ sv r,
      splitSurvivor s = some (sv, r) ∧ a ∈ r
  · obtain ⟨b, hb, s, hs, sv, r, hsr, har⟩ := hP
    have hmem_s : a ∈ s := splitSurvivor_rest_mem s sv r hsr a har
    have has0 : a ∈ scanFiles fs0 tree pat :=
      mem_multiBuckets_scan hb (sameGroups_sub hs a hmem_s)
    have hsvs : sv ∈ s := splitSurvivor_mem s sv r hsr
    have hsv0 : sv ∈ scanFiles fs0 tree pat :=
      mem_multiBuckets_scan hb (sameGroups_sub hs sv hsvs)
    have hsvreg : (inoOf fs0 sv).isSome = true := by
      rw [← isRegFile_eq]
      exact (mem_scanFiles.mp hsv0).2.1
    rcases hib : inoOf fs0 sv with _ | ib
    · rw [hib] at hsvreg
      exact absurd hsvreg (by simp)
    have hchar := r6 b hb s hs sv r hsr a har
    have huniq : ∀ b2 ∈ multiBuckets fs0 (scanFiles fs0 tree pat),
        ∀ s2 ∈ sameGroups fs0 b2, a ∈ s2 → ∀ sv2 r2,
        splitSurvivor s2 = some (sv2, r2) → sv2 = sv ∧ r2 = r := by
      intro b2 hb2 s2 hs2 has2 sv2 r2 hsr2
      have hss : s = s2 := sets_unique hb hb2 hs hs2 hmem_s has2
      rw [← hss, hsr] at hsr2
      simp only [Option.some.injEq, Prod.mk.injEq] at hsr2
      exact ⟨hsr2.1.symm, hsr2.2.symm⟩
    cases hsf : samefile fs0 sv a with
    | true =>
      rw [hsf, if_pos rfl] at hchar
      obtain ⟨i, hi1, hi2⟩ := samefile_true_ino hsf
      refine ⟨has0, fileContent_congr hchar r3, ?_⟩
      intro b2 hb2 s2 hs2 has2 sv2 r2 hsr2
      obtain ⟨he1, _⟩ := huniq b2 hb2 s2 hs2 has2 sv2 r2 hsr2
      rw [he1, inoOf_congr hchar, hi1, hi2]
    | false =>
      rw [hsf] at hchar
      simp only [Bool.false_eq_true, if_false] at hchar
      cases symlink with
      | true =>
        have hnone : inoOf
            ((linkSameFiles tree fs0 pat true true absolute orc how).fs) a
            = none := by
          unfold inoOf
          rw [hchar]
          rfl
        rw [isRegFile_eq, hnone] at hreg1
        exact absurd hreg1 (by simp)
      | false =>
        simp only [Bool.false_eq_true, if_false, hib, Option.map_some] at hchar
        have hia : inoOf
            ((linkSameFiles tree fs0 pat true false absolute orc how).fs) a
            = some ib := by
          unfold inoOf
          rw [hchar]
          rfl
        have hcta : fileContent
            ((linkSameFiles tree fs0 pat true false absolute orc how).fs) a
            = fileContent fs0 a := by
          have h1 : fileContent
              ((linkSameFiles tree fs0 pat true false absolute orc how).fs) a
              = fs0.contents ib := by
            unfold fileContent
            rw [hia, r3]
          have h2 : fileContent fs0 sv = fs0.contents ib := by
            unfold fileContent
            rw [hib]
          rw [h1, ← h2]
          exact sameGroups_content hs sv hsvs a hmem_s
        refine ⟨has0, hcta, ?_⟩
        intro b2 hb2 s2 hs2 has2 sv2 r2 hsr2
        obtain ⟨he1, _⟩ := huniq b2 hb2 s2 hs2 has2 sv2 r2 hsr2
        rw [he1, hia, hib]
  · have hfr : ∀ b ∈ multiBuckets fs0 (scanFiles fs0 tree pat),
        ∀ s ∈ sameGroups fs0 b, ∀ sv r,
        splitSurvivor s = some (sv, r) → a ∉ r := by
      intro b hb s hs sv r hsr har
      exact hP ⟨b, hb, s, hs, sv, r, hsr, har⟩
    have hent := r5 a hfr
    have has0 : a ∈ scanFiles fs0 tree pat := by
      apply mem_scanFiles.mpr
      refine ⟨hat, ?_, ?_, hpat1⟩
      · rw [isRegFile_eq, ← inoOf_congr hent, ← isRegFile_eq]
        exact hreg1
      · rw [← getsize_congr hent r3]
        exact hsz1
    refine ⟨has0, fileContent_congr hent r3, ?_⟩
    intro b hb s hs has sv r hsr
    rcases mem_of_split hsr has with he | hr
    · rw [← he]
      exact inoOf_congr hent
    · exact absurd hr (hfr b hb s hs sv r hsr)
theorem second_scan_samefile (tree : List FPath) (fs0 : FS)
    (pat : Option (String → Bool)) (symlink absolute : Bool) (orc : Oracle)
    (how : FPath → Bool) (hnodup : tree.Nodup) (hnf : noFailures orc)
    (hhash : ∀ p, how p = false) :
    ∀ a c,
      a ∈ scanFiles
        ((linkSameFiles tree fs0 pat true symlink absolute orc how).fs)
        tree pat →
      c ∈ scanFiles
        ((linkSameFiles tree fs0 pat true symlink absolute orc how).fs)
        tree pat →
      a ≠ c →
      fileContent
          ((linkSameFiles tree fs0 pat true symlink absolute orc how).fs) a
        = fileContent
          ((linkSameFiles tree fs0 pat true symlink absolute orc how).fs) c →
      samefile
        ((linkSameFiles tree fs0 pat true symlink absolute orc how).fs)
        a c = true := by
  intro a c ha hc hne hct
  obtain ⟨ha0, hca, hia⟩ := second_scan_state tree fs0 pat symlink absolute
    orc how hnodup hnf hhash a ha
  obtain ⟨hc0, hcc, hic⟩ := second_scan_state tree fs0 pat symlink absolute
    orc how hnodup hnf hhash c hc
  have hct0 : fileContent fs0 a = fileContent fs0 c := by
    rw [← hca, ← hcc, hct]
  have hsz0 : getsize fs0 a = getsize fs0 c := by
    unfold getsize
    rw [hct0]
  obtain ⟨b, hb, hab, hcb⟩ := mem_multiBuckets_of ha0 hc0 hne hsz0
  obtain ⟨s, hs, has, hcs⟩ := mem_sameGroups_of hab hcb hne hct0
  have hsne : s ≠ [] := by
    intro h
    rw [h] at has
    exact absurd has (List.not_mem_nil a)
  obtain ⟨sv, r, hsr⟩ := splitSurvivor_of_ne_nil s hsne
  have h1 := hia b hb s hs has sv r hsr
  have h2 := hic b hb s hs hcs sv r hsr
  have hsv0 : sv ∈ scanFiles fs0 tree pat :=
    mem_multiBuckets_scan hb (sameGroups_sub hs sv (splitSurvivor_mem s sv r
      hsr))
  have hsvreg : (inoOf fs0 sv).isSome = true := by
    rw [← isRegFile_eq]
    exact (mem_scanFiles.mp hsv0).2.1
  rcases hib : inoOf fs0 sv with _ | ib
  · rw [hib] at hsvreg
    exact absurd hsvreg (by simp)
  rw [hib] at h1 h2
  exact samefile_of_ino h1 h2

/-- C8: a second real run on the filesystem left by a first real run (same
tree, same options, failure-free environment) performs zero link actions:
its link count and bytes saved are both zero.  Members turned into
symlinks are no longer scanned as regular files; members hardlinked (or
already hardlinked) share the survivor's inode and are skipped by the
same-inode check. -/
theorem c8_second_run_zero (tree : List FPath) (fs0 : FS)
    (pat : Option (String → Bool)) (symlink absolute : Bool) (orc : Oracle)
    (how : FPath → Bool) (hnodup : tree.Nodup) (hnf : noFailures orc)
    (hhash : ∀ p, how p = false) :
    (linkSameFiles tree
        ((linkSameFiles tree fs0 pat true symlink absolute orc how).fs)
        pat true symlink absolute orc how).links = 0 ∧
    (linkSameFiles tree
        ((linkSameFiles tree fs0 pat true symlink absolute orc how).fs)
        pat true symlink absolute orc how).saved = 0 := by
  have hM := second_scan_samefile tree fs0 pat symlink absolute orc how
    hnodup hnf hhash
  have hall : ∀ b ∈ multiBuckets
      ((linkSameFiles tree fs0 pat true symlink absolute orc how).fs)
      (scanFiles
        ((linkSameFiles tree fs0 pat true symlink absolute orc how).fs)
        tree pat),
      ∀ s ∈ sameGroups
        ((linkSameFiles tree fs0 pat true symlink absolute orc how).fs) b,
      ∀ sv r, splitSurvivor s = some (sv, r) → ∀ f ∈ r,
      samefile
        ((linkSameFiles tree fs0 pat true symlink absolute orc how).fs)
        sv f = true := by
    intro b hb s hs sv r hsr f hf
    have hsvs : sv ∈ s := splitSurvivor_mem s sv r hsr
    have hfs : f ∈ s := splitSurvivor_rest_mem s sv r hsr f hf
    have hsvscan := mem_multiBuckets_scan hb (sameGroups_sub hs sv hsvs)
    have hfscan := mem_multiBuckets_scan hb (sameGroups_sub hs f hfs)
    have hnds : s.Nodup := sameGroups_nodup
      (multiBuckets_nodup (hnodup.filter _) hb) hs
    have hne : sv ≠ f := by
      intro he
      exact (splitSurvivor_nodup s sv r hnds hsr).2 (he ▸ hf)
    exact hM sv f hsvscan hfscan hne
      (sameGroups_content hs sv hsvs f hfs)
  obtain ⟨h1, h2, _⟩ := runBuckets_all_same symlink absolute orc how
    ((linkSameFiles tree fs0 pat true symlink absolute orc how).fs) hhash
    (multiBuckets
      ((linkSameFiles tree fs0 pat true symlink absolute orc how).fs)
      (scanFiles
        ((linkSameFiles tree fs0 pat true symlink absolute orc how).fs)
        tree pat))
    (RunSt.mk 0 0
      ((linkSameFiles tree fs0 pat true symlink absolute orc how).fs) []
      false)
    rfl hall
  exact ⟨h1, h2⟩

/-- Witness for C8 on the sample tree: the second real run reports zero
links and zero bytes saved. -/
theorem c8_second_run_zero_witness :
    (linkSameFiles [pa, pb, pc]
        ((linkSameFiles [pa, pb, pc] fsDemo none true false false orcOk
          howOk).fs)
        none true false false orcOk howOk).links = 0 :=
  (c8_second_run_zero [pa, pb, pc] fsDemo none false false orcOk howOk
    (by decide) (fun p => ⟨rfl, rfl, rfl⟩) (fun p => rfl)).1
theorem pm_contentsLow (link symlink absolute : Bool) (orc : Oracle)
    (base : FPath) (bsz l0 s0 : Nat) (fs0 fs : FS) (f : FPath)
    (h : contentsLow fs0 fs) :
    contentsLow fs0
      ((processMember link symlink absolute orc base bsz (l0, s0, fs) f).2.2)
    := by
  obtain ⟨h1, h2⟩ := h
  cases hm : samefile fs base f with
  | true =>
    rw [pm_same link symlink absolute orc base bsz l0 s0 fs f hm]
    exact ⟨h1, h2⟩
  | false =>
    cases link with
    | false => simp [processMember, hm]; exact ⟨h1, h2⟩
    | true =>
      cases h3 : orc.unlinkFails f with
      | true => simp [processMember, hm, h3]; exact ⟨h1, h2⟩
      | false =>
        cases h4 : (if symlink then none
            else if orc.hardlinkFails f then none
            else inoOf (removeEntry fs f) base) with
        | some i =>
          simp only [processMember, hm, h3, h4, Bool.false_eq_true, if_false,
            Bool.not_true, Bool.not_false, ite_true, ite_false]
          exact ⟨h1, h2⟩
        | none =>
          cases h5 : orc.symlinkFails f with
          | false =>
            simp only [processMember, hm, h3, h4, h5, Bool.false_eq_true,
              if_false, Bool.not_true, Bool.not_false, ite_true, ite_false]
            exact ⟨h1, h2⟩
          | true =>
            simp only [processMember, hm, h3, h4, h5, Bool.false_eq_true,
              if_false, Bool.not_true, Bool.not_false, ite_true, ite_false]
            refine ⟨?_, ?_⟩
            · simp [copyRestore, removeEntry]
              omega
            · intro i hi
              simp only [copyRestore, removeEntry]
              have hne : i ≠ fs.nextIno := by omega
              simp [hne]
              exact h2 i hi
theorem loop_contentsLow (link symlink absolute : Bool) (orc : Oracle)
    (base : FPath) (bsz : Nat) (fs0 : FS) :
    ∀ (rest : List FPath) (l0 s0 : Nat) (fs : FS), contentsLow fs0 fs →
      contentsLow fs0
        ((linkFilesLoop link symlink absolute orc base bsz (l0, s0, fs)
          rest).2.2) := by
  intro rest
  induction rest with
  | nil => intro l0 s0 fs h; exact h
  | cons f t ih =>
    intro l0 s0 fs h
    rw [linkFilesLoop_cons]
    rcases hpm : processMember link symlink absolute orc base bsz
      (l0, s0, fs) f with ⟨a, b, fs1⟩
    have h2 := pm_contentsLow link symlink absolute orc base bsz l0 s0 fs0
      fs f h
    rw [hpm] at h2
    exact ih a b fs1 h2

theorem runSet_frame_any (symlink absolute : Bool) (orc : Oracle)
    (st : RunSt) (s : List FPath) :
    (∀ q, (∀ sv r, splitSurvivor s = some (sv, r) → q ∉ r) →
      ((runSet true symlink absolute orc st s).fs).entries q
        = st.fs.entries q) ∧
    (runSet true symlink absolute orc st s).plans
      = (match splitSurvivor s with
         | none => st.plans
         | some pr => pr :: st.plans) ∧
    (∀ fs0, contentsLow fs0 st.fs →
      contentsLow fs0 ((runSet true symlink absolute orc st s).fs)) ∧
    (∀ pl ∈ st.plans, pl ∈ (runSet true symlink absolute orc st s).plans) := by
  cases hsp : splitSurvivor s with
  | none =>
    have hrs : runSet true symlink absolute orc st s = st := by
      unfold runSet
      rw [hsp]
    refine ⟨?_, ?_, ?_, ?_⟩
    · intro q _
      rw [hrs]
    · rw [hrs]
    · intro fs0 h
      rw [hrs]
      exact h
    · intro pl h
      rw [hrs]
      exact h
  | some pr =>
    rcases pr with ⟨sv, r⟩
    have hrs : runSet true symlink absolute orc st s
        = RunSt.mk
          (st.links + (linkFilesLoop true symlink absolute orc sv
            (getsize st.fs sv) (0, 0, st.fs) r).1)
          (st.saved + (linkFilesLoop true symlink absolute orc sv
            (getsize st.fs sv) (0, 0, st.fs) r).2.1)
          ((linkFilesLoop true symlink absolute orc sv
            (getsize st.fs sv) (0, 0, st.fs) r).2.2)
          ((sv, r) :: st.plans) st.hung := by
      unfold runSet
      rw [hsp]
    refine ⟨?_, ?_, ?_, ?_⟩
    · intro q hq
      rw [hrs]
      exact loop_entries_not_mem true symlink absolute orc sv
        (getsize st.fs sv) r 0 0 st.fs q (hq sv r rfl)
    · rw [hrs]
    · intro fs0 h
      rw [hrs]
      exact loop_contentsLow true symlink absolute orc sv (getsize st.fs sv)
        fs0 r 0 0 st.fs h
    · intro pl h
      rw [hrs]
      exact List.mem_cons_of_mem _ h

theorem plansOk_no_cross :
    ∀ {plans : List (FPath × List FPath)}, plansOk plans →
      ∀ pl ∈ plans, ∀ pl2 ∈ plans, pl.1 ∉ pl2.2 := by
  intro plans
  induction plans with
  | nil => intro _ pl hpl; exact absurd hpl (List.not_mem_nil pl)
  | cons p M ih =>
    intro h pl hpl pl2 hpl2
    obtain ⟨h1, h2⟩ := h
    obtain ⟨hp, hM⟩ := List.pairwise_cons.mp h2
    have htail : plansOk M :=
      ⟨fun q hq => h1 q (List.mem_cons_of_mem _ hq), hM⟩
    rcases List.mem_cons.mp hpl with e1 | e1 <;>
      rcases List.mem_cons.mp hpl2 with e2 | e2
    · rw [e1, e2]
      exact h1 p (List.mem_cons_self _ _)
    · rw [e1]
      intro hc
      exact hp pl2 e2 p.1 (List.mem_cons_self p.1 p.2)
        (List.mem_cons_of_mem pl2.1 hc)
    · rw [e2]
      intro hc
      exact hp pl e1 pl.1 (List.mem_cons_of_mem p.1 hc)
        (List.mem_cons_self pl.1 pl.2)
    · exact ih htail pl e1 pl2 e2
theorem plans_mono_sets (symlink absolute : Bool) (orc : Oracle) :
    ∀ (sets : List (List FPath)) (st : RunSt), ∀ pl ∈ st.plans,
      pl ∈ (sets.foldl (runSet true symlink absolute orc) st).plans := by
  intro sets
  induction sets with
  | nil => intro st pl h; exact h
  | cons s1 t ih =>
    intro st pl h
    rw [List.foldl_cons]
    exact ih (runSet true symlink absolute orc st s1) pl
      ((runSet_frame_any symlink absolute orc st s1).2.2.2 pl h)

theorem runSets_frame (symlink absolute : Bool) (orc : Oracle) (fs0 : FS) :
    ∀ (sets : List (List FPath)) (st : RunSt),
      List.Pairwise (fun s t => ∀ x ∈ s, x ∉ t) sets →
      (∀ s ∈ sets, s.Nodup) →
      (∀ pl ∈ st.plans, ∀ x ∈ membersOf pl, ∀ s ∈ sets, x ∉ s) →
      plansOk st.plans →
      contentsLow fs0 st.fs →
      (∀ q, ((sets.foldl (runSet true symlink absolute orc) st).fs).entries q
          ≠ st.fs.entries q →
        ∃ pl ∈ (sets.foldl (runSet true symlink absolute orc) st).plans,
          q ∈ pl.2) ∧
      (∀ pl ∈ (sets.foldl (runSet true symlink absolute orc) st).plans,
        pl ∈ st.plans ∨ ∃ s ∈ sets, splitSurvivor s = some pl) ∧
      plansOk (sets.foldl (runSet true symlink absolute orc) st).plans ∧
      contentsLow fs0 (sets.foldl (runSet true symlink absolute orc) st).fs
      := by
  intro sets
  induction sets with
  | nil =>
    intro st _ _ _ hok hlow
    exact ⟨fun q hq => absurd rfl hq, fun pl h => Or.inl h, hok, hlow⟩
  | cons s1 t ih =>
    intro st hpw hnd havoid hok hlow
    obtain ⟨hpw1, hpwt⟩ := List.pairwise_cons.mp hpw
    obtain ⟨F1, F2, F3, F4⟩ := runSet_frame_any symlink absolute orc st s1
    rw [List.foldl_cons]
    have hplans1 : ∀ pl ∈ (runSet true symlink absolute orc st s1).plans,
        pl ∈ st.plans ∨ splitSurvivor s1 = some pl := by
      intro pl h
      rw [F2] at h
      cases hsp : splitSurvivor s1 with
      | none =>
        rw [hsp] at h
        exact Or.inl h
      | some pr =>
        rw [hsp] at h
        rcases List.mem_cons.mp h with h1 | h1
        · exact Or.inr (by rw [h1])
        · exact Or.inl h1
    have hmem_of_plan : ∀ pl, splitSurvivor s1 = some pl →
        ∀ x ∈ membersOf pl, x ∈ s1 := by
      intro pl hsp x hx
      rcases List.mem_cons.mp hx with h1 | h1
      · rw [h1]
        exact splitSurvivor_mem s1 pl.1 pl.2 (by rw [hsp])
      · exact splitSurvivor_rest_mem s1 pl.1 pl.2 (by rw [hsp]) x h1
    have havoid1 : ∀ pl ∈ (runSet true symlink absolute orc st s1).plans,
        ∀ x ∈ membersOf pl, ∀ s ∈ t, x ∉ s := by
      intro pl h x hx s hs
      rcases hplans1 pl h with h1 | h1
      · exact havoid pl h1 x hx s (List.mem_cons_of_mem s1 hs)
      · intro hxs
        exact hpw1 s hs x (hmem_of_plan pl h1 x hx) hxs
    have hok1 : plansOk (runSet true symlink absolute orc st s1).plans := by
      rw [F2]
      cases hsp : splitSurvivor s1 with
      | none => exact hok
      | some pr =>
        constructor
        · intro pl h
          rcases List.mem_cons.mp h with h1 | h1
          · rw [h1]
            have hnd1 := splitSurvivor_nodup s1 pr.1 pr.2
              (hnd s1 (List.mem_cons_self s1 t)) (by rw [hsp])
            exact hnd1.2
          · exact hok.1 pl h1
        · rw [List.pairwise_cons]
          constructor
          · intro pl hpl x hx hx2
            exact havoid pl hpl x hx2 s1 (List.mem_cons_self s1 t)
              (hmem_of_plan pr hsp x hx)
          · exact hok.2
    obtain ⟨i1, i2, i3, i4⟩ := ih (runSet true symlink absolute orc st s1)
      hpwt (fun s hs => hnd s (List.mem_cons_of_mem s1 hs)) havoid1 hok1
      (F3 fs0 hlow)
    refine ⟨?_, ?_, i3, i4⟩
    · intro q hq
      by_cases hq1 : ((runSet true symlink absolute orc st s1).fs).entries q
          = st.fs.entries q
      · apply i1 q
        intro he
        exact hq (he.trans hq1)
      · have hq2 : ∃ sv r, splitSurvivor s1 = some (sv, r) ∧ q ∈ r := by
          by_contra hno
          push_neg at hno
          exact hq1 (F1 q (fun sv r hsr => hno sv r hsr))
        obtain ⟨sv, r, hsr, hqr⟩ := hq2
        refine ⟨(sv, r), ?_, hqr⟩
        apply plans_mono_sets symlink absolute orc t
          (runSet true symlink absolute orc st s1)
        rw [F2, hsr]
        exact List.mem_cons_self _ _
    · intro pl h
      rcases i2 pl h with h1 | ⟨s, hs, hsp⟩
      · rcases hplans1 pl h1 with h2 | h2
        · exact Or.inl h2
        · exact Or.inr ⟨s1, List.mem_cons_self s1 t, h2⟩
      · exact Or.inr ⟨s, List.mem_cons_of_mem s1 hs, hsp⟩
theorem split_members {s : List FPath} {pl : FPath × List FPath}
    (h : splitSurvivor s = some pl) : ∀ x ∈ membersOf pl, x ∈ s := by
  intro x hx
  rcases List.mem_cons.mp hx with h1 | h1
  · rw [h1]
    exact splitSurvivor_mem s pl.1 pl.2 (by rw [h])
  · exact splitSurvivor_rest_mem s pl.1 pl.2 (by rw [h]) x h1

theorem runBucket_cases (link symlink absolute : Bool) (orc : Oracle)
    (how : FPath → Bool) (st : RunSt) (b : List FPath) :
    runBucket link symlink absolute orc how st b
        = RunSt.mk st.links st.saved st.fs st.plans true ∨
    runBucket link symlink absolute orc how st b
        = (sameGroups st.fs b).foldl (runSet link symlink absolute orc) st
      := by
  unfold runBucket checkSame
  cases hany : b.any how with
  | true => exact Or.inl (by rw [if_pos rfl])
  | false => exact Or.inr (by rw [if_neg (by simp)])

theorem runBucket_frame (symlink absolute : Bool) (orc : Oracle)
    (how : FPath → Bool) (fs0 : FS) (st : RunSt) (b : List FPath)
    (hbnd : b.Nodup)
    (havoid : ∀ pl ∈ st.plans, ∀ x ∈ membersOf pl, x ∉ b)
    (hok : plansOk st.plans)
    (hlow : contentsLow fs0 st.fs) :
    (∀ q, ((runBucket true symlink absolute orc how st b).fs).entries q
        ≠ st.fs.entries q →
      ∃ pl ∈ (runBucket true symlink absolute orc how st b).plans,
        q ∈ pl.2) ∧
    (∀ pl ∈ (runBucket true symlink absolute orc how st b).plans,
      pl ∈ st.plans ∨ ∀ x ∈ membersOf pl, x ∈ b) ∧
    plansOk (runBucket true symlink absolute orc how st b).plans ∧
    contentsLow fs0 (runBucket true symlink absolute orc how st b).fs ∧
    (∀ pl ∈ st.plans,
      pl ∈ (runBucket true symlink absolute orc how st b).plans) := by
  rcases runBucket_cases true symlink absolute orc how st b with hc | hc
  · rw [hc]
    exact ⟨fun q hq => absurd rfl hq, fun pl h => Or.inl h, hok, hlow,
      fun pl h => h⟩
  · rw [hc]
    obtain ⟨i1, i2, i3, i4⟩ := runSets_frame symlink absolute orc fs0
      (sameGroups st.fs b) st (sameGroups_pairwise st.fs b)
      (fun s hs => sameGroups_nodup hbnd hs)
      (fun pl hpl x hx s hs hxs =>
        havoid pl hpl x hx (sameGroups_sub hs x hxs))
      hok hlow
    refine ⟨i1, ?_, i3, i4, plans_mono_sets symlink absolute orc _ st⟩
    intro pl h
    rcases i2 pl h with h1 | ⟨s, hs, hsp⟩
    · exact Or.inl h1
    · exact Or.inr (fun x hx =>
        sameGroups_sub hs x (split_members hsp x hx))

theorem plans_mono_buckets (symlink absolute : Bool) (orc : Oracle)
    (how : FPath → Bool) :
    ∀ (bs : List (List FPath)) (st : RunSt), ∀ pl ∈ st.plans,
      pl ∈ (bs.foldl (runBucket true symlink absolute orc how) st).plans := by
  intro bs
  induction bs with
  | nil => intro st pl h; exact h
  | cons b1 t ih =>
    intro st pl h
    rw [List.foldl_cons]
    apply ih
    rcases runBucket_cases true symlink absolute orc how st b1 with hc | hc
    · rw [hc]
      exact h
    · rw [hc]
      exact plans_mono_sets symlink absolute orc _ st pl h

theorem runBuckets_frame (symlink absolute : Bool) (orc : Oracle)
    (how : FPath → Bool) (fs0 : FS) :
    ∀ (bs : List (List FPath)) (st : RunSt),
      List.Pairwise (fun s t => ∀ x ∈ s, x ∉ t) bs →
      (∀ b ∈ bs, b.Nodup) →
      (∀ pl ∈ st.plans, ∀ x ∈ membersOf pl, ∀ b ∈ bs, x ∉ b) →
      plansOk st.plans →
      contentsLow fs0 st.fs →
      (∀ q,
        ((bs.foldl (runBucket true symlink absolute orc how) st).fs).entries q
          ≠ st.fs.entries q →
        ∃ pl ∈ (bs.foldl (runBucket true symlink absolute orc how) st).plans,
          q ∈ pl.2) ∧
      plansOk (bs.foldl (runBucket true symlink absolute orc how) st).plans ∧
      contentsLow fs0
        (bs.foldl (runBucket true symlink absolute orc how) st).fs := by
  intro bs
  induction bs with
  | nil =>
    intro st _ _ _ hok hlow
    exact ⟨fun q hq => absurd rfl hq, hok, hlow⟩
  | cons b1 t ih =>
    intro st hpw hnd havoid hok hlow
    obtain ⟨hpw1, hpwt⟩ := List.pairwise_cons.mp hpw
    rw [List.foldl_cons]
    obtain ⟨B1, B2, B3, B4, B5⟩ := runBucket_frame symlink absolute orc how
      fs0 st b1 (hnd b1 (List.mem_cons_self b1 t))
      (fun pl hpl x hx => havoid pl hpl x hx b1 (List.mem_cons_self b1 t))
      hok hlow
    have havoid1 : ∀ pl ∈ (runBucket true symlink absolute orc how st
        b1).plans, ∀ x ∈ membersOf pl, ∀ b ∈ t, x ∉ b := by
      intro pl hpl x hx b hb hxb
      rcases B2 pl hpl with h1 | h1
      · exact havoid pl h1 x hx b (List.mem_cons_of_mem b1 hb) hxb
      · exact hpw1 b hb x (h1 x hx) hxb
    obtain ⟨i1, i2, i3⟩ := ih (runBucket true symlink absolute orc how st b1)
      hpwt (fun b hb => hnd b (List.mem_cons_of_mem b1 hb)) havoid1 B3 B4
    refine ⟨?_, i2, i3⟩
    intro q hq
    by_cases hq1 : ((runBucket true symlink absolute orc how st b1).fs).entries q
        = st.fs.entries q
    · apply i1 q
      intro he
      exact hq (he.trans hq1)
    · obtain ⟨pl, hpl, hqpl⟩ := B1 q hq1
      exact ⟨pl, plans_mono_buckets symlink absolute orc how t
        (runBucket true symlink absolute orc how st b1) pl hpl, hqpl⟩
/-- C10: whatever per-file failures occur, a real run mutates no directory
entry other than the replaced (non-survivor) members of the LinkableSets
it processed, never touches a survivor's entry, and never rewrites the
bytes of any pre-existing file's inode.  Survivors, unique-size and
unique-content files, symlinks, zero-length and pattern-excluded files
are all outside every replaced list, hence untouched. -/
theorem c10_real_run_frame (tree : List FPath) (fs0 : FS)
    (pat : Option (String → Bool)) (symlink absolute : Bool) (orc : Oracle)
    (how : FPath → Bool) (hnodup : tree.Nodup) (hino : inosOk fs0) :
    (∀ q,
      ((linkSameFiles tree fs0 pat true symlink absolute orc how).fs).entries q
        ≠ fs0.entries q →
      ∃ pl ∈ (linkSameFiles tree fs0 pat true symlink absolute orc
        how).plans, q ∈ pl.2) ∧
    (∀ pl ∈ (linkSameFiles tree fs0 pat true symlink absolute orc how).plans,
      ∀ pl2 ∈ (linkSameFiles tree fs0 pat true symlink absolute orc
        how).plans, pl.1 ∉ pl2.2) ∧
    (∀ q i, fs0.entries q = some (Entry.regular i) →
      ((linkSameFiles tree fs0 pat true symlink absolute orc how).fs).contents i
        = fs0.contents i) := by
  have hfs : (scanFiles fs0 tree pat).Nodup := hnodup.filter _
  obtain ⟨i1, i2, i3⟩ := runBuckets_frame symlink absolute orc how fs0
    (multiBuckets fs0 (scanFiles fs0 tree pat))
    (RunSt.mk 0 0 fs0 [] false)
    (multiBuckets_pairwise fs0 (scanFiles fs0 tree pat))
    (fun b hb => multiBuckets_nodup hfs hb)
    (fun pl hpl => absurd hpl (List.not_mem_nil pl))
    ⟨fun pl hpl => absurd hpl (List.not_mem_nil pl), List.Pairwise.nil⟩
    ⟨le_refl _, fun i _ => rfl⟩
  have hdef : linkSameFiles tree fs0 pat true symlink absolute orc how
      = (multiBuckets fs0 (scanFiles fs0 tree pat)).foldl
          (runBucket true symlink absolute orc how)
          (RunSt.mk 0 0 fs0 [] false) := rfl
  refine ⟨?_, ?_, ?_⟩
  · intro q hq
    rw [hdef]
    exact i1 q (by rw [← hdef]; exact hq)
  · rw [hdef]
    exact plansOk_no_cross i2
  · intro q i h
    rw [hdef]
    exact i3.2 i (hino q i h)

theorem fsDemo_inosOk : inosOk fsDemo := by
  intro p i h
  have hn : fsDemo.nextIno = 10 := rfl
  rw [hn]
  unfold fsDemo at h
  simp only at h
  split at h
  · simp at h
    omega
  · split at h
    · simp at h
      omega
    · split at h
      · simp at h
        omega
      · simp at h

/-- Witness for C10: `r/b.txt` (unique content) keeps its entry out of
every replaced list, and its inode's bytes are untouched by the run. -/
theorem c10_real_run_frame_witness :
    fsDemo.entries pb = some (Entry.regular 2) ∧
    ((linkSameFiles [pa, pb, pc] fsDemo none true false false orcNoUnlink
      howOk).fs).contents 2 = fsDemo.contents 2 :=
  ⟨by decide,
    (c10_real_run_frame [pa, pb, pc] fsDemo none false false orcNoUnlink
      howOk (by decide) fsDemo_inosOk).2.2 pb 2 (by decide)⟩
